import Mathlib

/-!
Verification of the METW card enrichment step
(`src/parsers/Step4_enrich_with_metw.py`).

The embedding models Python strings as `List Char` (`Str`), Python's
`str.lower` on the basic-latin range via `Char.toLower` (the script's data
is ASCII-named; full Unicode case folding is out of scope), JSON payloads
as an inductive `Json` with insertion-ordered association-list objects
(mirroring Python `dict` iteration order), floats as exact rationals, and
the rdflib triple store as a duplicate-free list of triples with
set-semantics insertion (rdflib `Graph.add` of an existing triple is a
no-op).  Runtime type errors that the Python code can raise (for example
calling `.items()` on a list, or `len()` of an int) are modelled by
`Option`, `none` standing for an uncaught exception that aborts the run.
-/

namespace MetwStep4

/-- Python strings, modelled as lists of characters. -/
abbrev Str := List Char

/-- `str.lower`, modelled on the basic latin range by `Char.toLower`
(the CPython implementation additionally folds non-ASCII letters). -/
def lowerStr (s : Str) : Str := s.map Char.toLower

theorem char_toNat_ofNat {n : Nat} (h : n.isValidChar) : (Char.ofNat n).toNat = n := by
  rw [Char.ofNat, dif_pos h]
  rfl

theorem toLower_of_upper {c : Char} (h : 65 ≤ c.toNat ∧ c.toNat ≤ 90) :
    Char.toLower c = Char.ofNat (c.toNat + 32) := by
  simp only [Char.toLower]
  exact if_pos h

theorem toLower_of_not_upper {c : Char} (h : ¬(65 ≤ c.toNat ∧ c.toNat ≤ 90)) :
    Char.toLower c = c := by
  simp only [Char.toLower]
  exact if_neg h

theorem toLower_toNat_of_upper {c : Char} (h : 65 ≤ c.toNat ∧ c.toNat ≤ 90) :
    (Char.toLower c).toNat = c.toNat + 32 := by
  have hv : (c.toNat + 32).isValidChar := Or.inl (by omega)
  rw [toLower_of_upper h]
  exact char_toNat_ofNat hv

theorem toLower_idem (c : Char) : Char.toLower (Char.toLower c) = Char.toLower c := by
  by_cases h : 65 ≤ c.toNat ∧ c.toNat ≤ 90
  · have h1 : (Char.toLower c).toNat = c.toNat + 32 := toLower_toNat_of_upper h
    exact toLower_of_not_upper (by omega)
  · rw [toLower_of_not_upper h, toLower_of_not_upper h]

theorem lowerStr_idem (s : Str) : lowerStr (lowerStr s) = lowerStr s := by
  simp [lowerStr, Function.comp, toLower_idem]

/-- JSON values as decoded by Python's `json.load`: objects are
insertion-ordered association lists (Python `dict`s), numbers are
modelled as integers (the catalog ids are ints or strings). -/
inductive Json where
  | str (s : Str)
  | num (n : Int)
  | bool (b : Bool)
  | null
  | arr (xs : List Json)
  | obj (kvs : List (Str × Json))

/-- Key membership in a JSON object association list (`k in d`). -/
def jHasKey (kvs : List (Str × Json)) (k : Str) : Bool :=
  kvs.any (fun p => p.1 = k)

/-- First-match association-list lookup (`d[k]`; keys are unique in
objects produced by `json.load`). -/
def jget (kvs : List (Str × Json)) (k : Str) : Option Json :=
  match kvs with
  | [] => none
  | (k', v) :: t => if k' = k then some v else jget t k

/-- Python `d.get(k, dflt)`: the stored value whenever the key is
present (even if that value is empty/falsy), the default otherwise. -/
def jgetD (kvs : List (Str × Json)) (k : Str) (dflt : Json) : Json :=
  match jget kvs k with
  | some v => v
  | none => dflt

/-- Python truthiness on JSON values (`if not x`). -/
def jTruthy : Json → Bool
  | .str s => !s.isEmpty
  | .num n => n ≠ 0
  | .bool b => b
  | .null => false
  | .arr xs => !xs.isEmpty
  | .obj kvs => !kvs.isEmpty

/-- Python `str(x)` for the value shapes a catalog can hold.  Strings
pass through; ints print in decimal; `True`/`False`/`None` as in Python.
Containers print via their `repr`; we model that with a fixed marker
string since the enrichment never formats containers in the data the
claims exercise (a container `id`/`type` would still yield a
deterministic string in Python, which is all the claims rely on). -/
def pyStr : Json → Str
  | .str s => s
  | .num n => (toString n).data
  | .bool b => if b then "True".data else "False".data
  | .null => "None".data
  | .arr _ => "<container repr>".data
  | .obj _ => "<container repr>".data

/-- RDF terms: URI references and language-tagged literals (the only
term shapes this script creates or reads). -/
inductive Term where
  | uri (u : Str)
  | lit (text : Str) (lang : Option Str)
deriving DecidableEq, Repr

/-- `str(term)` as used on SPARQL results: the URI string of a
`URIRef`, the lexical form of a `Literal`. -/
def termText : Term → Str
  | .uri u => u
  | .lit t _ => t

/-- One triple of the store. -/
structure Stmt where
  subj : Term
  pred : Term
  obj : Term
deriving DecidableEq, Repr

/-- The rdflib graph: a duplicate-free list of triples. -/
abbrev Graph := List Stmt

/-- `Graph.add`: rdflib stores a set of triples, so adding an existing
triple leaves the graph unchanged; a new triple is appended. -/
def graphAdd (g : Graph) (t : Stmt) : Graph :=
  if t ∈ g then g else g ++ [t]

def graphAddAll (g : Graph) (l : List Stmt) : Graph :=
  l.foldl graphAdd g

theorem mem_graphAdd_of_mem {g : Graph} {t u : Stmt} (h : u ∈ g) : u ∈ graphAdd g t := by
  unfold graphAdd
  split
  · exact h
  · exact List.mem_append_left _ h

theorem mem_graphAdd_self (g : Graph) (t : Stmt) : t ∈ graphAdd g t := by
  unfold graphAdd
  split
  · assumption
  · exact List.mem_append_right _ (List.mem_singleton.mpr rfl)

theorem graphAdd_of_mem {g : Graph} {t : Stmt} (h : t ∈ g) : graphAdd g t = g := by
  unfold graphAdd
  exact if_pos h

theorem mem_graphAddAll_of_mem {g : Graph} {l : List Stmt} {u : Stmt} (h : u ∈ g) :
    u ∈ graphAddAll g l := by
  induction l generalizing g with
  | nil => exact h
  | cons t rest ih => exact ih (mem_graphAdd_of_mem h)

theorem mem_graphAddAll_of_mem_list {g : Graph} {l : List Stmt} {u : Stmt} (h : u ∈ l) :
    u ∈ graphAddAll g l := by
  induction l generalizing g with
  | nil => cases h
  | cons t rest ih =>
    rcases List.mem_cons.mp h with h1 | h2
    · subst h1
      show u ∈ graphAddAll (graphAdd g u) rest
      exact mem_graphAddAll_of_mem (mem_graphAdd_self g u)
    · exact ih h2

theorem graphAddAll_of_subset {g : Graph} {l : List Stmt} (h : ∀ u ∈ l, u ∈ g) :
    graphAddAll g l = g := by
  induction l with
  | nil => rfl
  | cons t rest ih =>
    have ht : t ∈ g := h t (List.mem_cons_self t rest)
    show graphAddAll (graphAdd g t) rest = g
    rw [graphAdd_of_mem ht]
    exact ih (fun u hu => h u (List.mem_cons_of_mem t hu))

/-!
## difflib.SequenceMatcher

`similarity_score` calls `SequenceMatcher(None, str1.lower(), str2.lower()).ratio()`.
The following definitions translate CPython's `difflib` for the
`isjunk=None` case used here: `b2j` maps each character of `b` to its
ascending list of positions and the `autojunk` heuristic drops
characters occurring more than `len(b)//100 + 1` times when
`len(b) >= 200`; `find_longest_match` runs the position-chaining dynamic
program (`j2len`, modelled as a total function that is `0` outside the
stored keys, which is exact because stored chain lengths are always
positive) followed by the two equal-extension loops.  The final two
loops of CPython's `find_longest_match` extend over junk characters and
require `isbjunk` to hold; with `isjunk=None` the junk set `bjunk` is
empty, so they are modelled with the constant-false `bjunk` below.
Scores are exact rationals in place of floats. -/

/-- Ascending list of positions of `c` in `b` (one entry list of `b2j`). -/
def positions (b : Str) (c : Char) : List Nat :=
  (List.range b.length).filter (fun j => b.get? j = some c)

/-- The autojunk popularity cutoff `ntest = n // 100 + 1`. -/
def ntestOf (n : Nat) : Nat := n / 100 + 1

/-- autojunk: with `len(b) >= 200`, characters occurring more than
`ntest` times are purged from `b2j`. -/
def isPopular (b : Str) (c : Char) : Bool :=
  decide (200 ≤ b.length) && decide (ntestOf b.length < (positions b c).length)

/-- `self.b2j.get(c, [])` after the autojunk purge. -/
def b2j (b : Str) (c : Char) : List Nat :=
  if isPopular b c then [] else positions b c

/-- `self.bjunk.__contains__`: empty because `isjunk=None` at the call site. -/
def bjunk (_ : Char) : Bool := false

/-- State of `find_longest_match`'s scanning loop. -/
structure FLM where
  besti : Nat
  bestj : Nat
  bestsize : Nat
  j2len : Nat → Nat

/-- One inner-loop step of `find_longest_match` at row `i`, column `j`:
`k = newj2len[j] = j2len.get(j-1, 0) + 1` (reading the previous row
`prev`; Python's key `j-1 = -1` when `j = 0` is never present), then the
best triple is replaced when `k > bestsize`. -/
def cellStep (prev : Nat → Nat) (i : Nat) (st : FLM) (j : Nat) : FLM :=
  let k := (if j = 0 then 0 else prev (j - 1)) + 1
  let nj : Nat → Nat := fun x => if x = j then k else st.j2len x
  if st.bestsize < k then ⟨i + 1 - k, j + 1 - k, k, nj⟩
  else ⟨st.besti, st.bestj, st.bestsize, nj⟩

/-- One outer-loop iteration (row `i`): scan `b2j.get(a[i], [])`,
skipping `j < blo` (`continue`) and stopping at `j >= bhi` (`break`;
equivalent to filtering since position lists ascend), with a fresh
`newj2len` and the previous row captured as `j2lenget`. -/
def outerStep (a b : Str) (blo bhi : Nat) (st : FLM) (i : Nat) : FLM :=
  let js := (b2j b (a.getD i ' ')).filter (fun j => decide (blo ≤ j) && decide (j < bhi))
  js.foldl (cellStep st.j2len i) ⟨st.besti, st.bestj, st.bestsize, fun _ => 0⟩

/-- The scanning phase of `find_longest_match` over rows
`alo, ..., ahi-1`, starting from `besti, bestj, bestsize = alo, blo, 0`. -/
def phase1 (a b : Str) (alo ahi blo bhi : Nat) : FLM :=
  (List.range' alo (ahi - alo)).foldl (outerStep a b blo bhi) ⟨alo, blo, 0, fun _ => 0⟩

/-- First extension loop: widen the best block leftwards over equal,
non-junk characters.  Structural on `bi`: the loop guard `besti > alo`
always fails at `bi = 0`, and each iteration replaces `besti` by
`besti - 1`. -/
def extendBack (a b : Str) (alo blo : Nat) : Nat → Nat → Nat → Nat × Nat × Nat
  | 0, bj, bs => (0, bj, bs)
  | bi + 1, bj, bs =>
    if alo < bi + 1 ∧ blo < bj ∧ bjunk (b.getD (bj - 1) ' ') = false ∧
        a.getD bi ' ' = b.getD (bj - 1) ' ' then
      extendBack a b alo blo bi (bj - 1) (bs + 1)
    else (bi + 1, bj, bs)

/-- Second extension loop: widen the best block rightwards over equal,
non-junk characters.  The explicit counter equals `ahi - (bi + bs)` at
every entry (see `extendFwd`), so it reaches `0` exactly when the guard
`besti + bestsize < ahi` fails: the loop is never truncated. -/
def extendFwdLoop (a b : Str) (ahi bhi bi bj : Nat) : Nat → Nat → Nat
  | 0, bs => bs
  | fuel + 1, bs =>
    if bi + bs < ahi ∧ bj + bs < bhi ∧ bjunk (b.getD (bj + bs) ' ') = false ∧
        a.getD (bi + bs) ' ' = b.getD (bj + bs) ' ' then
      extendFwdLoop a b ahi bhi bi bj fuel (bs + 1)
    else bs

def extendFwd (a b : Str) (ahi bhi bi bj bs : Nat) : Nat :=
  extendFwdLoop a b ahi bhi bi bj (ahi - (bi + bs)) bs

/-- Third loop: extend leftwards over junk; vacuous here since `bjunk`
is empty with `isjunk=None`, but kept for fidelity. -/
def extendBackJunk (a b : Str) (alo blo : Nat) : Nat → Nat → Nat → Nat × Nat × Nat
  | 0, bj, bs => (0, bj, bs)
  | bi + 1, bj, bs =>
    if alo < bi + 1 ∧ blo < bj ∧ bjunk (b.getD (bj - 1) ' ') = true ∧
        a.getD bi ' ' = b.getD (bj - 1) ' ' then
      extendBackJunk a b alo blo bi (bj - 1) (bs + 1)
    else (bi + 1, bj, bs)

/-- Fourth loop: extend rightwards over junk; vacuous, kept for fidelity. -/
def extendFwdJunkLoop (a b : Str) (ahi bhi bi bj : Nat) : Nat → Nat → Nat
  | 0, bs => bs
  | fuel + 1, bs =>
    if bi + bs < ahi ∧ bj + bs < bhi ∧ bjunk (b.getD (bj + bs) ' ') = true ∧
        a.getD (bi + bs) ' ' = b.getD (bj + bs) ' ' then
      extendFwdJunkLoop a b ahi bhi bi bj fuel (bs + 1)
    else bs

def extendFwdJunk (a b : Str) (ahi bhi bi bj bs : Nat) : Nat :=
  extendFwdJunkLoop a b ahi bhi bi bj (ahi - (bi + bs)) bs

/-- `SequenceMatcher.find_longest_match(alo, ahi, blo, bhi)`. -/
def findLongestMatch (a b : Str) (alo ahi blo bhi : Nat) : Nat × Nat × Nat :=
  let st := phase1 a b alo ahi blo bhi
  let r1 := extendBack a b alo blo st.besti st.bestj st.bestsize
  let k2 := extendFwd a b ahi bhi r1.1 r1.2.1 r1.2.2
  let r3 := extendBackJunk a b alo blo r1.1 r1.2.1 k2
  let k4 := extendFwdJunk a b ahi bhi r3.1 r3.2.1 r3.2.2
  (r3.1, r3.2.1, k4)

theorem extendBackJunk_eq (a b : Str) (alo blo bi bj bs : Nat) :
    extendBackJunk a b alo blo bi bj bs = (bi, bj, bs) := by
  cases bi with
  | zero => rfl
  | succ bi' =>
    rw [extendBackJunk, if_neg]
    simp [bjunk]

theorem extendFwdJunkLoop_eq (a b : Str) (ahi bhi bi bj : Nat) :
    ∀ fuel bs, extendFwdJunkLoop a b ahi bhi bi bj fuel bs = bs := by
  intro fuel
  cases fuel with
  | zero => intro bs; rfl
  | succ f =>
    intro bs
    rw [extendFwdJunkLoop, if_neg]
    simp [bjunk]

theorem extendFwdJunk_eq (a b : Str) (ahi bhi bi bj bs : Nat) :
    extendFwdJunk a b ahi bhi bi bj bs = bs := by
  unfold extendFwdJunk
  exact extendFwdJunkLoop_eq a b ahi bhi bi bj _ bs

theorem findLongestMatch_eq (a b : Str) (alo ahi blo bhi : Nat) :
    findLongestMatch a b alo ahi blo bhi =
      (let st := phase1 a b alo ahi blo bhi
       let r1 := extendBack a b alo blo st.besti st.bestj st.bestsize
       let k2 := extendFwd a b ahi bhi r1.1 r1.2.1 r1.2.2
       (r1.1, r1.2.1, k2)) := by
  unfold findLongestMatch
  simp only [extendBackJunk_eq, extendFwdJunk_eq]

/-- Generic fold invariant over a list. -/
theorem foldl_mem_inv {α σ : Type _} {P : σ → Prop} {f : σ → α → σ} {l : List α} {s : σ}
    (h0 : P s) (hstep : ∀ t a, a ∈ l → P t → P (f t a)) : P (l.foldl f s) := by
  induction l generalizing s with
  | nil => exact h0
  | cons a t ih =>
    exact ih (hstep s a (List.mem_cons_self a t) h0)
      (fun u x hx hu => hstep u x (List.mem_cons_of_mem a hx) hu)

/-- Generic indexed fold invariant over `List.range'`. -/
theorem foldl_range'_inv {σ : Type _} (P : Nat → σ → Prop) (f : σ → Nat → σ) :
    ∀ (n alo : Nat) (s : σ), P alo s →
      (∀ i t, alo ≤ i → i < alo + n → P i t → P (i + 1) (f t i)) →
      P (alo + n) ((List.range' alo n).foldl f s) := by
  intro n
  induction n with
  | zero => intro alo s h0 _; exact h0
  | succ n ih =>
    intro alo s h0 hstep
    have h1 : P (alo + 1) (f s alo) :=
      hstep alo s (Nat.le_refl alo) (by omega) h0
    have h2 := ih (alo + 1) (f s alo) h1
      (fun i t hi1 hi2 ht => hstep i t (by omega) (by omega) ht)
    have : alo + (n + 1) = alo + 1 + n := by omega
    rw [this]
    exact h2

/-- The best-block bounds maintained by `find_longest_match`'s scan. -/
def bestOK (alo ahi blo bhi : Nat) (st : FLM) : Prop :=
  (st.besti = alo ∧ st.bestj = blo ∧ st.bestsize = 0) ∨
  (alo ≤ st.besti ∧ st.besti + st.bestsize ≤ ahi ∧
   blo ≤ st.bestj ∧ st.bestj + st.bestsize ≤ bhi)

/-- Bounds on the stored chain lengths of a `j2len` row. -/
def rowOK (alo blo i : Nat) (f : Nat → Nat) : Prop :=
  ∀ x, f x + alo ≤ i ∧ (f x = 0 ∨ f x + blo ≤ x + 1)

theorem rowOK_mono {alo blo i i' : Nat} {f : Nat → Nat} (h : rowOK alo blo i f)
    (hle : i ≤ i') : rowOK alo blo i' f :=
  fun x => ⟨Nat.le_trans (h x).1 hle, (h x).2⟩

theorem cellStep_inv {alo ahi blo bhi i : Nat} (hi1 : alo ≤ i) (hi2 : i < ahi)
    {prev : Nat → Nat} (hprev : rowOK alo blo i prev) (st : FLM) (j : Nat)
    (hj1 : blo ≤ j) (hj2 : j < bhi)
    (hb : bestOK alo ahi blo bhi st) (hr : rowOK alo blo (i + 1) st.j2len) :
    bestOK alo ahi blo bhi (cellStep prev i st j) ∧
      rowOK alo blo (i + 1) (cellStep prev i st j).j2len := by
  have hk1 : (if j = 0 then 0 else prev (j - 1)) + 1 + alo ≤ i + 1 := by
    split
    · omega
    · have := (hprev (j - 1)).1; omega
  have hk2 : (if j = 0 then 0 else prev (j - 1)) + 1 + blo ≤ j + 1 := by
    split
    · omega
    · rcases (hprev (j - 1)).2 with h0 | h1 <;> omega
  have hkpos : 1 ≤ (if j = 0 then 0 else prev (j - 1)) + 1 := by omega
  have hcell : cellStep prev i st j =
      if st.bestsize < (if j = 0 then 0 else prev (j - 1)) + 1 then
        ⟨i + 1 - ((if j = 0 then 0 else prev (j - 1)) + 1),
         j + 1 - ((if j = 0 then 0 else prev (j - 1)) + 1),
         (if j = 0 then 0 else prev (j - 1)) + 1,
         fun x => if x = j then (if j = 0 then 0 else prev (j - 1)) + 1 else st.j2len x⟩
      else ⟨st.besti, st.bestj, st.bestsize,
         fun x => if x = j then (if j = 0 then 0 else prev (j - 1)) + 1 else st.j2len x⟩ := rfl
  rw [hcell]
  generalize hKd : (if j = 0 then 0 else prev (j - 1)) + 1 = K at hk1 hk2 hkpos ⊢
  have hrow : rowOK alo blo (i + 1) (fun x => if x = j then K else st.j2len x) := by
    intro x
    by_cases hx : x = j
    · subst hx
      exact ⟨by simpa using hk1, Or.inr (by simpa using hk2)⟩
    · simpa [hx] using hr x
  by_cases hlt : st.bestsize < K
  · rw [if_pos hlt]
    constructor
    · refine Or.inr ⟨?_, ?_, ?_, ?_⟩
      · show alo ≤ i + 1 - K
        omega
      · show i + 1 - K + K ≤ ahi
        omega
      · show blo ≤ j + 1 - K
        omega
      · show j + 1 - K + K ≤ bhi
        omega
    · exact hrow
  · rw [if_neg hlt]
    exact ⟨hb, hrow⟩

theorem outerStep_inv {a b : Str} {alo ahi blo bhi : Nat} (i : Nat) (st : FLM)
    (hi1 : alo ≤ i) (hi2 : i < ahi)
    (h : bestOK alo ahi blo bhi st ∧ rowOK alo blo i st.j2len) :
    bestOK alo ahi blo bhi (outerStep a b blo bhi st i) ∧
      rowOK alo blo (i + 1) (outerStep a b blo bhi st i).j2len := by
  unfold outerStep
  simp only
  refine @foldl_mem_inv _ _
    (fun t => bestOK alo ahi blo bhi t ∧ rowOK alo blo (i + 1) t.j2len) _ _ _ ?_ ?_
  · refine ⟨h.1, fun x => ⟨?_, Or.inl rfl⟩⟩
    show 0 + alo ≤ i + 1
    omega
  · intro t j hj ht
    have hj' := List.mem_filter.mp hj
    have hj1 : blo ≤ j := by
      have := hj'.2
      simp only [Bool.and_eq_true, decide_eq_true_eq] at this
      exact this.1
    have hj2 : j < bhi := by
      have := hj'.2
      simp only [Bool.and_eq_true, decide_eq_true_eq] at this
      exact this.2
    exact cellStep_inv hi1 hi2 h.2 t j hj1 hj2 ht.1 ht.2

theorem phase1_bounds (a b : Str) (alo ahi blo bhi : Nat) :
    bestOK alo ahi blo bhi (phase1 a b alo ahi blo bhi) := by
  unfold phase1
  have h := foldl_range'_inv
    (fun i t => bestOK alo ahi blo bhi t ∧ rowOK alo blo i t.j2len)
    (outerStep a b blo bhi) (ahi - alo) alo ⟨alo, blo, 0, fun _ => 0⟩
    ⟨Or.inl ⟨rfl, rfl, rfl⟩, fun x => ⟨show 0 + alo ≤ alo by omega, Or.inl rfl⟩⟩
    (fun i t hi1 hi2 ht =>
      have h1 := @outerStep_inv a b alo ahi blo bhi i t hi1 (by omega) ⟨ht.1, ht.2⟩
      ⟨h1.1, h1.2⟩)
  exact h.1

theorem extendBack_spec (a b : Str) (alo blo : Nat) :
    ∀ bi bj bs,
      (extendBack a b alo blo bi bj bs).1 + (extendBack a b alo blo bi bj bs).2.2 = bi + bs ∧
      (extendBack a b alo blo bi bj bs).2.1 + (extendBack a b alo blo bi bj bs).2.2 = bj + bs ∧
      (alo ≤ bi → alo ≤ (extendBack a b alo blo bi bj bs).1) ∧
      (blo ≤ bj → blo ≤ (extendBack a b alo blo bi bj bs).2.1) ∧
      bs ≤ (extendBack a b alo blo bi bj bs).2.2 := by
  intro bi
  induction bi with
  | zero =>
    intro bj bs
    exact ⟨rfl, rfl, fun h => h, fun h => h, Nat.le_refl bs⟩
  | succ bi' ih =>
    intro bj bs
    rw [extendBack]
    split
    · rename_i h
      obtain ⟨s1, s2, i1, i2, i3⟩ := ih (bj - 1) (bs + 1)
      have hbj : 1 ≤ bj := by omega
      refine ⟨by omega, by omega, fun _ => i1 (by omega), fun _ => i2 (by omega), by omega⟩
    · exact ⟨rfl, rfl, fun h => h, fun h => h, Nat.le_refl bs⟩

theorem extendFwdLoop_spec (a b : Str) (ahi bhi bi bj : Nat) :
    ∀ fuel bs,
      bs ≤ extendFwdLoop a b ahi bhi bi bj fuel bs ∧
      (extendFwdLoop a b ahi bhi bi bj fuel bs = bs ∨
        (bi + extendFwdLoop a b ahi bhi bi bj fuel bs ≤ ahi ∧
         bj + extendFwdLoop a b ahi bhi bi bj fuel bs ≤ bhi)) := by
  intro fuel
  induction fuel with
  | zero => exact fun bs => ⟨Nat.le_refl bs, Or.inl rfl⟩
  | succ f ih =>
    intro bs
    rw [extendFwdLoop]
    split
    · rename_i h
      obtain ⟨h1, h2⟩ := ih (bs + 1)
      refine ⟨by omega, ?_⟩
      rcases h2 with h2 | h2
      · exact Or.inr (by omega)
      · exact Or.inr h2
    · exact ⟨Nat.le_refl bs, Or.inl rfl⟩

theorem extendFwd_spec (a b : Str) (ahi bhi bi bj bs : Nat) :
    bs ≤ extendFwd a b ahi bhi bi bj bs ∧
    (extendFwd a b ahi bhi bi bj bs = bs ∨
      (bi + extendFwd a b ahi bhi bi bj bs ≤ ahi ∧
       bj + extendFwd a b ahi bhi bi bj bs ≤ bhi)) :=
  extendFwdLoop_spec a b ahi bhi bi bj (ahi - (bi + bs)) bs

theorem flm_bounds {a b : Str} {alo ahi blo bhi i j k : Nat}
    (h : findLongestMatch a b alo ahi blo bhi = (i, j, k)) (hk : k ≠ 0) :
    alo ≤ i ∧ i + k ≤ ahi ∧ blo ≤ j ∧ j + k ≤ bhi := by
  rw [findLongestMatch_eq] at h
  simp only [Prod.mk.injEq] at h
  obtain ⟨hi, hj, hkk⟩ := h
  obtain ⟨s1, s2, m1, m2, m3⟩ := extendBack_spec a b alo blo
    (phase1 a b alo ahi blo bhi).besti (phase1 a b alo ahi blo bhi).bestj
    (phase1 a b alo ahi blo bhi).bestsize
  obtain ⟨f1, f2⟩ := extendFwd_spec a b ahi bhi
    (extendBack a b alo blo (phase1 a b alo ahi blo bhi).besti
      (phase1 a b alo ahi blo bhi).bestj (phase1 a b alo ahi blo bhi).bestsize).1
    (extendBack a b alo blo (phase1 a b alo ahi blo bhi).besti
      (phase1 a b alo ahi blo bhi).bestj (phase1 a b alo ahi blo bhi).bestsize).2.1
    (extendBack a b alo blo (phase1 a b alo ahi blo bhi).besti
      (phase1 a b alo ahi blo bhi).bestj (phase1 a b alo ahi blo bhi).bestsize).2.2
  rcases phase1_bounds a b alo ahi blo bhi with hdeg | hnd
  · obtain ⟨e1, e2, e3⟩ := hdeg
    have m1' := m1 (by omega)
    have m2' := m2 (by omega)
    rcases f2 with f2 | f2 <;> omega
  · obtain ⟨n1, n2, n3, n4⟩ := hnd
    have m1' := m1 n1
    have m2' := m2 n3
    rcases f2 with f2 | f2 <;> omega

/-- Measure of the work queue of `get_matching_blocks`. -/
def qMeasure (q : List (Nat × Nat × Nat × Nat)) : Nat :=
  (q.map (fun e => e.2.1 - e.1 + (e.2.2.2 - e.2.2.1) + 1)).sum

theorem qMeasure_cons (e : Nat × Nat × Nat × Nat) (q : List (Nat × Nat × Nat × Nat)) :
    qMeasure (e :: q) = e.2.1 - e.1 + (e.2.2.2 - e.2.2.1) + 1 + qMeasure q := by
  simp [qMeasure]

/-- The queue loop of `get_matching_blocks`: pop the most recently
pushed interval pair, find its longest match, record it when nonempty,
and push the left and right sub-intervals (Python pushes left then
right, and pops from the end, so the right interval is processed
first: here it is consed last).  The recorded order feeds a sort, so it
does not affect the result.  The explicit counter is an upper bound on
`qMeasure` of the queue, which strictly decreases each iteration, so
the `0`-with-nonempty-queue arm is never reached from
`getMatchingBlocks` (`mbQueue_fuel_irrel` makes the counter choice
irrelevant). -/
def mbQueue (a b : Str) : Nat → List (Nat × Nat × Nat × Nat) → List (Nat × Nat × Nat) →
    List (Nat × Nat × Nat)
  | _, [], acc => acc
  | 0, _ :: _, acc => acc
  | fuel + 1, (alo, ahi, blo, bhi) :: rest, acc =>
    match findLongestMatch a b alo ahi blo bhi with
    | (i, j, k) =>
      if k = 0 then mbQueue a b fuel rest acc
      else if alo < i ∧ blo < j then
        if i + k < ahi ∧ j + k < bhi then
          mbQueue a b fuel ((i + k, ahi, j + k, bhi) :: (alo, i, blo, j) :: rest)
            (acc ++ [(i, j, k)])
        else
          mbQueue a b fuel ((alo, i, blo, j) :: rest) (acc ++ [(i, j, k)])
      else
        if i + k < ahi ∧ j + k < bhi then
          mbQueue a b fuel ((i + k, ahi, j + k, bhi) :: rest) (acc ++ [(i, j, k)])
        else
          mbQueue a b fuel rest (acc ++ [(i, j, k)])

theorem mbQueue_fuel_irrel_aux (a b : Str) :
    ∀ (n f1 f2 : Nat) (q : List (Nat × Nat × Nat × Nat)) (acc : List (Nat × Nat × Nat)),
      qMeasure q ≤ n → qMeasure q ≤ f1 → qMeasure q ≤ f2 →
      mbQueue a b f1 q acc = mbQueue a b f2 q acc := by
  intro n
  induction n with
  | zero =>
    intro f1 f2 q acc hn h1 h2
    cases q with
    | nil => cases f1 <;> cases f2 <;> rfl
    | cons e rest =>
      exfalso
      rw [qMeasure_cons] at hn
      omega
  | succ n ih =>
    intro f1 f2 q acc hn h1 h2
    cases q with
    | nil => cases f1 <;> cases f2 <;> rfl
    | cons e rest =>
      obtain ⟨alo, ahi, blo, bhi⟩ := e
      have hm : 1 ≤ qMeasure ((alo, ahi, blo, bhi) :: rest) := by
        rw [qMeasure_cons]; omega
      cases f1 with
      | zero => omega
      | succ f1' =>
        cases f2 with
        | zero => omega
        | succ f2' =>
          rw [mbQueue, mbQueue]
          cases hx : findLongestMatch a b alo ahi blo bhi with
          | mk i jk =>
            obtain ⟨j, k⟩ := jk
            simp only
            by_cases hk : k = 0
            · rw [if_pos hk, if_pos hk]
              exact ih f1' f2' rest acc
                (by rw [qMeasure_cons] at hn; omega)
                (by rw [qMeasure_cons] at h1; omega)
                (by rw [qMeasure_cons] at h2; omega)
            · have hb := flm_bounds hx hk
              rw [if_neg hk, if_neg hk]
              by_cases hc1 : alo < i ∧ blo < j
              · rw [if_pos hc1, if_pos hc1]
                by_cases hc2 : i + k < ahi ∧ j + k < bhi
                · rw [if_pos hc2, if_pos hc2]
                  refine ih f1' f2' _ _ ?_ ?_ ?_ <;>
                    (simp only [qMeasure_cons] at hn h1 h2 ⊢; omega)
                · rw [if_neg hc2, if_neg hc2]
                  refine ih f1' f2' _ _ ?_ ?_ ?_ <;>
                    (simp only [qMeasure_cons] at hn h1 h2 ⊢; omega)
              · rw [if_neg hc1, if_neg hc1]
                by_cases hc2 : i + k < ahi ∧ j + k < bhi
                · rw [if_pos hc2, if_pos hc2]
                  refine ih f1' f2' _ _ ?_ ?_ ?_ <;>
                    (simp only [qMeasure_cons] at hn h1 h2 ⊢; omega)
                · rw [if_neg hc2, if_neg hc2]
                  refine ih f1' f2' _ _ ?_ ?_ ?_ <;>
                    (simp only [qMeasure_cons] at hn h1 h2 ⊢; omega)

/-- The counter passed to `mbQueue` is irrelevant as long as it bounds
`qMeasure` of the queue: the loop always terminates by emptying the
queue first. -/
theorem mbQueue_fuel_irrel (a b : Str) (f1 f2 : Nat)
    (q : List (Nat × Nat × Nat × Nat)) (acc : List (Nat × Nat × Nat))
    (h1 : qMeasure q ≤ f1) (h2 : qMeasure q ≤ f2) :
    mbQueue a b f1 q acc = mbQueue a b f2 q acc :=
  mbQueue_fuel_irrel_aux a b (qMeasure q) f1 f2 q acc (Nat.le_refl _) h1 h2

/-- Lexicographic order on match triples (`matching_blocks.sort()`). -/
def blockLe (x y : Nat × Nat × Nat) : Bool :=
  decide (x.1 < y.1) ||
    (decide (x.1 = y.1) &&
      (decide (x.2.1 < y.2.1) || (decide (x.2.1 = y.2.1) && decide (x.2.2 ≤ y.2.2))))

/-- Stable insertion used by `sortBlocks`. -/
def insertBlock (x : Nat × Nat × Nat) : List (Nat × Nat × Nat) → List (Nat × Nat × Nat)
  | [] => [x]
  | y :: t => if blockLe x y then x :: y :: t else y :: insertBlock x t

/-- `matching_blocks.sort()`: a stable sort under the total
lexicographic order `blockLe`; since that order is total and
antisymmetric, the sorted list is the same as CPython's. -/
def sortBlocks : List (Nat × Nat × Nat) → List (Nat × Nat × Nat)
  | [] => []
  | x :: t => insertBlock x (sortBlocks t)

/-- The adjacency-merging pass at the end of `get_matching_blocks`,
carried out with the running triple `(i1, j1, k1)` that starts at
`(0, 0, 0)`. -/
def mergeAdj : Nat × Nat × Nat → List (Nat × Nat × Nat) → List (Nat × Nat × Nat)
  | (i1, j1, k1), [] => if k1 ≠ 0 then [(i1, j1, k1)] else []
  | (i1, j1, k1), (i2, j2, k2) :: t =>
    if i1 + k1 = i2 ∧ j1 + k1 = j2 then mergeAdj (i1, j1, k1 + k2) t
    else (if k1 ≠ 0 then [(i1, j1, k1)] else []) ++ mergeAdj (i2, j2, k2) t

/-- `SequenceMatcher.get_matching_blocks()`, including the terminating
sentinel `(len(a), len(b), 0)`. -/
def getMatchingBlocks (a b : Str) : List (Nat × Nat × Nat) :=
  let blocks :=
    sortBlocks (mbQueue a b (a.length + b.length + 1) [(0, a.length, 0, b.length)] [])
  mergeAdj (0, 0, 0) blocks ++ [(a.length, b.length, 0)]

/-- `SequenceMatcher.ratio()`: `2*M / T` over the summed matching-block
sizes, `1.0` when both sequences are empty.  Scores are exact
rationals in place of CPython floats. -/
def ratioOf (a b : Str) : ℚ :=
  let msum := ((getMatchingBlocks a b).map (fun t => t.2.2)).sum
  if a.length + b.length ≠ 0 then (2 * msum : ℚ) / (a.length + b.length) else 1

/-- `METWEnricher.similarity_score`: the `SequenceMatcher` ratio of the
two lowercased strings (`isjunk=None`). -/
def similarity_score (s1 s2 : Str) : ℚ :=
  ratioOf (lowerStr s1) (lowerStr s2)

/-!
## The enricher: index, matcher, extractor, linker
-/

/-- The entity index: a Python `dict` from normalized name to entity
URI, modelled as an insertion-ordered association list with unique keys. -/
abbrev EIndex := List (Str × Term)

/-- Python `dict` assignment `d[k] = v`: an existing key keeps its
position and gets the new value, a new key is appended. -/
def dinsert : EIndex → Str → Term → EIndex
  | [], k, v => [(k, v)]
  | (k', v') :: t, k, v => if k' = k then (k, v) :: t else (k', v') :: dinsert t k v

/-- Python `dict` lookup / `in` test. -/
def dlookup : EIndex → Str → Option Term
  | [], _ => none
  | (k', v') :: t, k => if k' = k then some v' else dlookup t k

/-- `name.replace(' ', '')`: remove all space characters. -/
def removeSpaces (s : Str) : Str := s.filter (fun c => c != ' ')

def schemaName : Term := .uri ("http://schema.org/name".data)
def rdfType : Term := .uri ("http://www.w3.org/1999/02/22-rdf-syntax-ns#type".data)
def rdfsLabel : Term := .uri ("http://www.w3.org/2000/01/rdf-schema#label".data)
def schemaThing : Term := .uri ("http://schema.org/Thing".data)
def schemaSubjectOf : Term := .uri ("http://schema.org/subjectOf".data)
def schemaAdditionalType : Term := .uri ("http://schema.org/additionalType".data)
def schemaAdditionalProperty : Term := .uri ("http://schema.org/additionalProperty".data)
def schemaIsPartOf : Term := .uri ("http://schema.org/isPartOf".data)

/-- The `METW` namespace under which card nodes are minted. -/
def metwPrefix : Str := "http://metw.org/card/".data

/-- The rows of the SPARQL query `SELECT ?entity ?name WHERE { ?entity
schema:name ?name . }`: every (subject, object) pair of a `schema:name`
triple, with `str(row.name)` applied to the object.  rdflib's result
order is backend-defined; it is modelled as graph order here, and no
theorem below depends on this order. -/
def namePairs (g : Graph) : List (Term × Str) :=
  g.filterMap (fun st =>
    if st.pred = schemaName then some (st.subj, termText st.obj) else none)

/-- `METWEnricher._build_entity_index`, folded over the query rows:
`name = str(row.name).lower()`, then `index[name] = uri` and
`index[name.replace(' ', '')] = uri`. -/
def build_entity_index (rows : List (Term × Str)) : EIndex :=
  rows.foldl (fun idx row =>
    dinsert (dinsert idx (lowerStr row.2) row.1)
      (removeSpaces (lowerStr row.2)) row.1) []

/-- One step of the fuzzy loop of `find_best_match`: replace the best
pair only when `score > best_score and score >= threshold`. -/
def fuzzyStep (card_name : Str) (threshold : ℚ) (acc : ℚ × Option Term)
    (e : Str × Term) : ℚ × Option Term :=
  let score := similarity_score card_name e.1
  if acc.1 < score ∧ threshold ≤ score then (score, some e.2) else acc

/-- `METWEnricher.find_best_match`: exact lookup of the lowercased name,
then the fuzzy scan over the index items starting from
`best_score, best_match = 0.0, None`. -/
def find_best_match (idx : EIndex) (card_name : Str) (threshold : ℚ) : Option Term :=
  match dlookup idx (lowerStr card_name) with
  | some e => some e
  | none => (idx.foldl (fuzzyStep card_name threshold) (0, none)).2

/-- The nested-by-set scan of `enrich_with_cards`: for every top-level
value that is a mapping containing a `"cards"` key, append the values
of that sub-mapping; a `"cards"` value that is not a mapping makes
`set_data['cards'].items()` raise (`none`). -/
def nestedOf : List (Str × Json) → Option (List Json)
  | [] => some []
  | (_, Json.obj kvs') :: t =>
    match jget kvs' ("cards".data) with
    | some (Json.obj cs) => (nestedOf t).map (fun rest => cs.map Prod.snd ++ rest)
    | some _ => none
    | none => nestedOf t
  | _ :: t => nestedOf t

/-- Shape resolution of `enrich_with_cards`: for a mapping payload, the
nested-by-set scan first; if it collected nothing, fall back to
`cards_data.get('cards', cards_data.get('data', []))`; a non-mapping
payload is used directly. -/
def allCardsJson : Json → Option Json
  | Json.obj kvs =>
    match nestedOf kvs with
    | none => none
    | some [] => some (jgetD kvs ("cards".data) (jgetD kvs ("data".data) (Json.arr [])))
    | some xs => some (Json.arr xs)
  | j => some j

/-- `len(all_cards)`: defined for mappings, sequences and strings;
anything else raises `TypeError`. -/
def jsonLen : Json → Option Nat
  | .obj kvs => some kvs.length
  | .arr xs => some xs.length
  | .str s => some s.length
  | _ => none

/-- `for card in all_cards`: a mapping iterates its keys (as strings), a
sequence its elements, a string its characters; anything else raises. -/
def toCardList : Json → Option (List Json)
  | .obj kvs => some (kvs.map (fun p => Json.str p.1))
  | .arr xs => some xs
  | .str s => some (s.map (fun c => Json.str [c]))
  | _ => none

/-- `card.get('name', '')`. -/
def rawName (kvs : List (Str × Json)) : Json := jgetD kvs ("name".data) (Json.str [])

/-- Multilingual resolution
`card_name_obj.get('en', card_name_obj.get('es', card_name_obj.get('fr', '')))`:
`dict.get` falls back only when the key is absent, so a present-but-empty
`'en'` value is returned as is. -/
def resolveNameObj (nkvs : List (Str × Json)) : Json :=
  jgetD nkvs ("en".data) (jgetD nkvs ("es".data) (jgetD nkvs ("fr".data) (Json.str [])))

/-- The resolved display name of a card record: the `name` value itself
when it is not a mapping, the multilingual resolution when it is.  A
non-mapping card makes `card.get` raise (`none`). -/
def resolvedName : Json → Option Json
  | .obj kvs =>
    match rawName kvs with
    | .obj nkvs => some (resolveNameObj nkvs)
    | other => some other
  | _ => none

/-- `card_name.replace(' ', '_')`. -/
def underscore (s : Str) : Str := s.map (fun c => if c = ' ' then '_' else c)

/-- `card_id = card.get('id', card_name.replace(' ', '_'))`. -/
def cardIdOf (kvs : List (Str × Json)) (card_name : Str) : Json :=
  jgetD kvs ("id".data) (Json.str (underscore card_name))

/-- `card_uri = self.METW[str(card_id)]`. -/
def cardUriOf (kvs : List (Str × Json)) (card_name : Str) : Term :=
  Term.uri (metwPrefix ++ pyStr (cardIdOf kvs card_name))

def enLang : Option Str := some ("en".data)

/-- The statements `enrich_with_cards` adds for one matched card, in
`graph.add` order: the unconditional type assertion, label and
`subjectOf` link, then `additionalType` when the `'type'` key is
present, `additionalProperty` when the `'alignment'` key is present,
and `isPartOf` when the `'set'` value is truthy (non-empty). -/
def cardStmts (e : Term) (kvs : List (Str × Json)) (card_name : Str) : List Stmt :=
  let cu := cardUriOf kvs card_name
  [⟨cu, rdfType, schemaThing⟩,
   ⟨cu, rdfsLabel, Term.lit card_name enLang⟩,
   ⟨e, schemaSubjectOf, cu⟩]
  ++ (match jget kvs ("type".data) with
      | some v => [⟨cu, schemaAdditionalType, Term.lit (pyStr v) enLang⟩]
      | none => [])
  ++ (match jget kvs ("alignment".data) with
      | some v => [⟨cu, schemaAdditionalProperty,
          Term.lit ("alignment: ".data ++ pyStr v) enLang⟩]
      | none => [])
  ++ (if jTruthy (jgetD kvs ("set".data) (Json.str [])) then
        [⟨cu, schemaIsPartOf,
          Term.lit ("METW Set: ".data ++ pyStr (jgetD kvs ("set".data) (Json.str []))) enLang⟩]
      else [])

/-- The effect of one iteration of the card loop, independently of the
graph: `none` for a runtime error (non-mapping card, or a truthy
non-string resolved name reaching `card_name.lower()`), otherwise the
statements to add and the `linked_count` increment (0 when the name is
falsy — `continue` — or no entity matched). -/
def cardEffect (idx : EIndex) (card : Json) : Option (List Stmt × Nat) :=
  match card with
  | Json.obj kvs =>
    match (match rawName kvs with
           | .obj nkvs => resolveNameObj nkvs
           | other => other) with
    | cn =>
      if jTruthy cn then
        match cn with
        | Json.str s =>
          match find_best_match idx s (85 / 100) with
          | some e => some (cardStmts e kvs s, 1)
          | none => some ([], 0)
        | _ => none
      else some ([], 0)
  | _ => none

/-- One iteration of the card loop acting on the graph and the running
`linked_count`: each emitted statement is `graph.add`ed in order. -/
def processCard (idx : EIndex) (acc : Graph × Nat) (card : Json) : Option (Graph × Nat) :=
  match cardEffect idx card with
  | none => none
  | some (l, d) => some (graphAddAll acc.1 l, acc.2 + d)

/-- The card loop of `enrich_with_cards`. -/
def enrichCards (idx : EIndex) : Graph → Nat → List Json → Option (Graph × Nat)
  | g, cnt, [] => some (g, cnt)
  | g, cnt, c :: cs =>
    match processCard idx (g, cnt) c with
    | none => none
    | some (g', cnt') => enrichCards idx g' cnt' cs

/-- `METWEnricher.enrich_with_cards` on a decoded payload: shape
resolution, the `len(all_cards) == 0` early return (graph untouched,
returns 0), then the card loop with `linked_count = 0`.  The result is
the final graph and the returned `linked_count`; `none` models an
uncaught runtime error aborting the run. -/
def enrich_with_cards (idx : EIndex) (g : Graph) (payload : Json) : Option (Graph × Nat) :=
  match allCardsJson payload with
  | none => none
  | some ac =>
    match jsonLen ac with
    | none => none
    | some 0 => some (g, 0)
    | some _ =>
      match toCardList ac with
      | none => none
      | some cards => enrichCards idx g 0 cards

/-- Declarative form of the nested-by-set collection: every card object
found under a `'cards'` sub-mapping of a top-level value, in order.
(Used to characterize `nestedOf` on non-raising payloads.) -/
def nestedSpec : List (Str × Json) → List Json
  | [] => []
  | (_, Json.obj kvs') :: t =>
    (match jget kvs' ("cards".data) with
     | some (Json.obj cs) => cs.map Prod.snd
     | _ => []) ++ nestedSpec t
  | _ :: t => nestedSpec t

/-!
## Chain functions for the self-similarity proof

`mChain s i j` is the value the scan of `find_longest_match` stores in
`newj2len[j]` at row `i` when both sequences are `s` and the full
interval is scanned: the length of the run of surviving (non-autojunk)
equal characters ending at `(i, j)`, `0` when the cell is not visited. -/

/-- Row `i` of the scan visits column `j` iff `j` holds the character
`a[i]` and that character survived the autojunk purge. -/
abbrev cellOK (s : Str) (i j : Nat) : Prop :=
  s.get? j = some (s.getD i ' ') ∧ isPopular s (s.getD i ' ') = false

def mChain (s : Str) : Nat → Nat → Nat
  | 0, j => if cellOK s 0 j then 1 else 0
  | i + 1, 0 => if cellOK s (i + 1) 0 then 1 else 0
  | i + 1, j + 1 => if cellOK s (i + 1) (j + 1) then mChain s i j + 1 else 0

/-- The diagonal chain value: the surviving run ending at `i`. -/
def rr (s : Str) (i : Nat) : Nat := mChain s i i

/-- Maximum diagonal chain over rows `0, ..., i-1`: the best size after
`i` rows of the scan. -/
def bigM (s : Str) : Nat → Nat
  | 0 => 0
  | i + 1 => max (bigM s i) (rr s i)

/-- The `j2len` row that enters row `i` of the scan. -/
def prevRow (s : Str) (i : Nat) : Nat → Nat :=
  fun x => match i with
  | 0 => 0
  | i' + 1 => mChain s i' x

/-!
## Concrete data used by counterexamples and witnesses
-/

def entA : Term := Term.uri ("e/A".data)
def entB : Term := Term.uri ("e/B".data)

/-- A one-entity index mapping the key `"gandalf"` to `entA`. -/
def idxG : EIndex := build_entity_index [(entA, "Gandalf".data)]

/-- A card whose `'type'` field is present but empty. -/
def cardEmptyType : Json :=
  Json.obj [("name".data, Json.str "Gandalf".data), ("type".data, Json.str [])]

/-- A payload whose top-level value has a `'cards'` member that is a
sequence, not a mapping. -/
def payloadBadCards : Json :=
  Json.obj [("A".data, Json.obj [("cards".data, Json.arr [])])]

/-- A multilingual name with a present-but-empty English entry and a
non-empty Spanish entry. -/
def nameEnEmpty : List (Str × Json) :=
  [("en".data, Json.str []), ("es".data, Json.str "Trancos".data)]

def cardEnEmpty : Json := Json.obj [("name".data, Json.obj nameEnEmpty)]

/-!
## Shared lemmas about the index and JSON accessors
-/

theorem dlookup_mem {idx : EIndex} {k : Str} {e : Term} (h : dlookup idx k = some e) :
    (k, e) ∈ idx := by
  induction idx with
  | nil => cases h
  | cons p t ih =>
    obtain ⟨k', v'⟩ := p
    by_cases hk : k' = k
    · subst hk
      rw [dlookup, if_pos rfl] at h
      cases h
      exact List.mem_cons_self _ _
    · rw [dlookup, if_neg hk] at h
      exact List.mem_cons_of_mem _ (ih h)

theorem dlookup_dinsert_self (d : EIndex) (k : Str) (v : Term) :
    dlookup (dinsert d k v) k = some v := by
  induction d with
  | nil => simp [dinsert, dlookup]
  | cons p t ih =>
    obtain ⟨k', v'⟩ := p
    by_cases hk : k' = k
    · subst hk
      rw [dinsert, if_pos rfl, dlookup, if_pos rfl]
    · rw [dinsert, if_neg hk, dlookup, if_neg hk]
      exact ih

theorem jgetD_of_some {kvs : List (Str × Json)} {k : Str} {v : Json} (d : Json)
    (h : jget kvs k = some v) : jgetD kvs k d = v := by
  unfold jgetD
  rw [h]

theorem jgetD_of_none {kvs : List (Str × Json)} {k : Str} (d : Json)
    (h : jget kvs k = none) : jgetD kvs k d = d := by
  unfold jgetD
  rw [h]

theorem resolvedName_obj (kvs : List (Str × Json)) :
    resolvedName (Json.obj kvs) =
      some (match rawName kvs with
            | .obj nkvs => resolveNameObj nkvs
            | other => other) := by
  cases h : rawName kvs <;> simp [resolvedName, h]

theorem cardEffect_obj (idx : EIndex) (kvs : List (Str × Json)) :
    cardEffect idx (Json.obj kvs) =
      (match (match rawName kvs with
              | .obj nkvs => resolveNameObj nkvs
              | other => other) with
       | cn =>
         if jTruthy cn then
           match cn with
           | Json.str s =>
             match find_best_match idx s (85 / 100) with
             | some e => some (cardStmts e kvs s, 1)
             | none => some ([], 0)
           | _ => none
         else some ([], 0)) := rfl

/-!
## Claim theorems
-/

/-- Claim C2: whenever the lowercased candidate is itself an index key,
`find_best_match` returns the entity stored under that key, for every
threshold and regardless of the rest of the index — the exact hit is
returned before any fuzzy score is consulted. -/
theorem c2_exact_hit_wins (idx : EIndex) (cand : Str) (t : ℚ) (e : Term)
    (h : dlookup idx (lowerStr cand) = some e) :
    find_best_match idx cand t = some e := by
  unfold find_best_match
  rw [h]

theorem c2_witness :
    dlookup idxG (lowerStr "GANDALF".data) = some entA ∧
    find_best_match idxG "GANDALF".data (85 / 100) = some entA :=
  ⟨rfl, c2_exact_hit_wins idxG "GANDALF".data (85 / 100) entA rfl⟩

theorem fuzzyStep_pos {cand : Str} {t : ℚ} {acc : ℚ × Option Term} {k : Str} {v : Term}
    (h : acc.1 < similarity_score cand k ∧ t ≤ similarity_score cand k) :
    fuzzyStep cand t acc (k, v) = (similarity_score cand k, some v) := by
  unfold fuzzyStep
  exact if_pos h

theorem fuzzyStep_neg {cand : Str} {t : ℚ} {acc : ℚ × Option Term} {k : Str} {v : Term}
    (h : ¬(acc.1 < similarity_score cand k ∧ t ≤ similarity_score cand k)) :
    fuzzyStep cand t acc (k, v) = acc := by
  unfold fuzzyStep
  exact if_neg h

theorem foldl_fuzzy_lt {cand : Str} {t s0 : ℚ} (l : EIndex) (acc : ℚ × Option Term)
    (hacc : acc.1 < s0) (hl : ∀ p ∈ l, similarity_score cand p.1 < s0) :
    (l.foldl (fuzzyStep cand t) acc).1 < s0 := by
  refine @foldl_mem_inv _ _ (fun acc : ℚ × Option Term => acc.1 < s0) _ _ _ hacc ?_
  intro u p hp hu
  obtain ⟨k, v⟩ := p
  by_cases hc : u.1 < similarity_score cand k ∧ t ≤ similarity_score cand k
  · rw [fuzzyStep_pos hc]
    exact hl (k, v) hp
  · rw [fuzzyStep_neg hc]
    exact hu

theorem foldl_fuzzy_const {cand : Str} {t s0 : ℚ} {e0 : Term} (l : EIndex)
    (hl : ∀ p ∈ l, similarity_score cand p.1 ≤ s0) :
    l.foldl (fuzzyStep cand t) (s0, some e0) = (s0, some e0) := by
  refine @foldl_mem_inv _ _ (fun acc : ℚ × Option Term => acc = (s0, some e0)) _ _ _ rfl ?_
  intro u p hp hu
  obtain ⟨k, v⟩ := p
  subst hu
  apply fuzzyStep_neg
  intro hc
  exact absurd (hl (k, v) hp) (not_le.mpr hc.1)

set_option maxHeartbeats 1000000 in
theorem sim_x_y : similarity_score ['x'] ['y'] = 0 := by
  have h : getMatchingBlocks (lowerStr ['x']) (lowerStr ['y']) = [(1, 1, 0)] := rfl
  unfold similarity_score ratioOf
  rw [h]
  norm_num [lowerStr]

set_option maxHeartbeats 1000000 in
theorem sim_x_z : similarity_score ['x'] ['z'] = 0 := by
  have h : getMatchingBlocks (lowerStr ['x']) (lowerStr ['z']) = [(1, 1, 0)] := rfl
  unfold similarity_score ratioOf
  rw [h]
  norm_num [lowerStr]

set_option maxHeartbeats 2000000 in
theorem sim_ab_ax : similarity_score ['a', 'b'] ['a', 'x'] = 1 / 2 := by
  have h : getMatchingBlocks (lowerStr ['a', 'b']) (lowerStr ['a', 'x']) =
      [(0, 0, 1), (2, 2, 0)] := rfl
  unfold similarity_score ratioOf
  rw [h]
  norm_num [lowerStr]

set_option maxHeartbeats 2000000 in
theorem sim_ab_ay : similarity_score ['a', 'b'] ['a', 'y'] = 1 / 2 := by
  have h : getMatchingBlocks (lowerStr ['a', 'b']) (lowerStr ['a', 'y']) =
      [(0, 0, 1), (2, 2, 0)] := rfl
  unfold similarity_score ratioOf
  rw [h]
  norm_num [lowerStr]

/-- Claim C3, counterexample: with index keys `"y"` and `"z"` (entities
`entA`, `entB`), candidate `"x"` and threshold `0`, both keys attain
the same maximal similarity `0`, which is at (i.e. not below) the
threshold, yet `find_best_match` returns no match at all rather than
the first key's entity: a score equal to the initial `best_score = 0.0`
can never win the strict `score > best_score` comparison. -/
theorem c3_counterexample :
    similarity_score ['x'] ['y'] = 0 ∧
    similarity_score ['x'] ['z'] = 0 ∧
    find_best_match [(['y'], entA), (['z'], entB)] ['x'] 0 = none := by
  refine ⟨sim_x_y, sim_x_z, ?_⟩
  unfold find_best_match
  have hl : dlookup [(['y'], entA), (['z'], entB)] (lowerStr ['x']) = none := rfl
  simp only [hl, List.foldl_cons, List.foldl_nil]
  have h1 : fuzzyStep ['x'] 0 ((0 : ℚ), (none : Option Term)) (['y'], entA) =
      ((0 : ℚ), (none : Option Term)) :=
    fuzzyStep_neg (by rw [sim_x_y]; simp)
  have h2 : fuzzyStep ['x'] 0 ((0 : ℚ), (none : Option Term)) (['z'], entB) =
      ((0 : ℚ), (none : Option Term)) :=
    fuzzyStep_neg (by rw [sim_x_z]; simp)
  rw [h1, h2]

/-- Claim C3, amended: in the fuzzy phase a key replaces the current
best only when its score is strictly greater than the current best and
at least the threshold; consequently, when two or more keys attain the
same maximal score, that score at or above the threshold and positive,
the entity of the key encountered first in index iteration order is
returned (when the maximal score is `0` — only possible with threshold
`0` — nothing ever replaces the initial `best_score = 0.0` and no
match is returned). -/
theorem c3_first_max_wins (cand : Str) (t : ℚ) (k0 : Str) (e0 : Term)
    (l1 l2 : EIndex)
    (hmiss : dlookup (l1 ++ (k0, e0) :: l2) (lowerStr cand) = none)
    (hmax : ∀ p ∈ l1 ++ (k0, e0) :: l2,
      similarity_score cand p.1 ≤ similarity_score cand k0)
    (hfirst : ∀ p ∈ l1, similarity_score cand p.1 < similarity_score cand k0)
    (hthr : t ≤ similarity_score cand k0)
    (hpos : 0 < similarity_score cand k0) :
    find_best_match (l1 ++ (k0, e0) :: l2) cand t = some e0 := by
  unfold find_best_match
  simp only [hmiss]
  rw [List.foldl_append, List.foldl_cons]
  have hacc1 : ((l1.foldl (fuzzyStep cand t) (0, none)).1 : ℚ) < similarity_score cand k0 :=
    foldl_fuzzy_lt l1 (0, none) hpos hfirst
  rw [fuzzyStep_pos ⟨hacc1, hthr⟩]
  have hconst := @foldl_fuzzy_const cand t (similarity_score cand k0) e0 l2
    (fun p hp => hmax p (List.mem_append_right l1 (List.mem_cons_of_mem _ hp)))
  rw [hconst]

theorem c3_witness :
    similarity_score ['a', 'b'] ['a', 'x'] = similarity_score ['a', 'b'] ['a', 'y'] ∧
    find_best_match [(['a', 'x'], entA), (['a', 'y'], entB)] ['a', 'b'] (1 / 4) =
      some entA := by
  constructor
  · rw [sim_ab_ax, sim_ab_ay]
  · exact c3_first_max_wins ['a', 'b'] (1 / 4) ['a', 'x'] entA []
      [(['a', 'y'], entB)] rfl
      (by
        intro p hp
        rcases List.mem_cons.mp hp with h | h
        · subst h; exact le_refl _
        · rcases List.mem_singleton.mp h with rfl
          rw [sim_ab_ax, sim_ab_ay])
      (by intro p hp; cases hp)
      (by rw [sim_ab_ax]; norm_num)
      (by rw [sim_ab_ax]; norm_num)

/-- Claim C4, counterexample: a card whose `'type'` field is present
but empty still produces an `additionalType` statement (with an empty
literal), because the code tests `'type' in card`, not non-emptiness:
enriching with `[{"name": "Gandalf", "type": ""}]` over an index that
matches `"Gandalf"` yields four statements, the last being the
`additionalType` statement with empty text. -/
theorem c4_counterexample :
    enrich_with_cards idxG [] (Json.arr [cardEmptyType]) =
      some ([⟨Term.uri (metwPrefix ++ "Gandalf".data), rdfType, schemaThing⟩,
             ⟨Term.uri (metwPrefix ++ "Gandalf".data), rdfsLabel,
               Term.lit ("Gandalf".data) enLang⟩,
             ⟨entA, schemaSubjectOf, Term.uri (metwPrefix ++ "Gandalf".data)⟩,
             ⟨Term.uri (metwPrefix ++ "Gandalf".data), schemaAdditionalType,
               Term.lit [] enLang⟩], 1) := rfl

/-- Claim C4, amended: per matched card, the `additionalType` statement
is emitted exactly once iff the `'type'` key is present (even with an
empty value), the `additionalProperty` statement exactly once iff the
`'alignment'` key is present (even with an empty value), and the
`isPartOf` statement exactly once iff the `'set'` value is present and
truthy (non-empty). -/
theorem c4_optional_statements (e : Term) (kvs : List (Str × Json)) (name : Str) :
    ((cardStmts e kvs name).countP (fun st => decide (st.pred = schemaAdditionalType)) =
      if (jget kvs ("type".data)).isSome then 1 else 0) ∧
    ((cardStmts e kvs name).countP (fun st => decide (st.pred = schemaAdditionalProperty)) =
      if (jget kvs ("alignment".data)).isSome then 1 else 0) ∧
    ((cardStmts e kvs name).countP (fun st => decide (st.pred = schemaIsPartOf)) =
      if jTruthy (jgetD kvs ("set".data) (Json.str [])) then 1 else 0) := by
  have d1 : rdfType ≠ schemaAdditionalType := by decide
  have d2 : rdfsLabel ≠ schemaAdditionalType := by decide
  have d3 : schemaSubjectOf ≠ schemaAdditionalType := by decide
  have d4 : rdfType ≠ schemaAdditionalProperty := by decide
  have d5 : rdfsLabel ≠ schemaAdditionalProperty := by decide
  have d6 : schemaSubjectOf ≠ schemaAdditionalProperty := by decide
  have d7 : rdfType ≠ schemaIsPartOf := by decide
  have d8 : rdfsLabel ≠ schemaIsPartOf := by decide
  have d9 : schemaSubjectOf ≠ schemaIsPartOf := by decide
  have d10 : schemaAdditionalType ≠ schemaAdditionalProperty := by decide
  have d11 : schemaAdditionalType ≠ schemaIsPartOf := by decide
  have d12 : schemaAdditionalProperty ≠ schemaIsPartOf := by decide
  have d13 : schemaAdditionalProperty ≠ schemaAdditionalType := by decide
  have d14 : schemaIsPartOf ≠ schemaAdditionalType := by decide
  have d15 : schemaIsPartOf ≠ schemaAdditionalProperty := by decide
  rcases hty : jget kvs ("type".data) with _ | v1 <;>
    rcases hal : jget kvs ("alignment".data) with _ | v2 <;>
    by_cases hset : jTruthy (jgetD kvs ("set".data) (Json.str [])) <;>
    simp [cardStmts, hty, hal, hset, List.countP_append, List.countP_cons,
      d1, d2, d3, d4, d5, d6, d7, d8, d9, d10, d11, d12, d13, d14, d15]

/-- Claim C5, counterexample: an entity whose name attribute is the
empty string does contribute an entry to the entity index (under the
empty key) — `_build_entity_index` has no emptiness filter. -/
theorem c5_counterexample :
    dlookup (build_entity_index [(entA, [])]) [] = some entA := rfl

/-- Claim C5, amended: an entity with an empty name contributes an
index entry under the empty key (both derived keys coincide), but on
the card side an empty resolved name short-circuits the loop iteration:
no match is attempted, no statement is emitted and the count is
unchanged. -/
theorem c5_empty_names (idx : EIndex) :
    (∀ (rows : List (Term × Str)) (e : Term),
      dlookup (build_entity_index (rows ++ [(e, [])])) [] = some e) ∧
    (∀ (g : Graph) (cnt : Nat) (card : Json),
      resolvedName card = some (Json.str []) →
      processCard idx (g, cnt) card = some (g, cnt)) := by
  constructor
  · intro rows e
    unfold build_entity_index
    rw [List.foldl_append]
    exact dlookup_dinsert_self _ _ _
  · intro g cnt card h
    cases card with
    | obj kvs =>
      have hres := resolvedName_obj kvs
      rw [h] at hres
      have hcn : (match rawName kvs with
                  | .obj nkvs => resolveNameObj nkvs
                  | other => other) = Json.str [] :=
        (Option.some_inj.mp hres).symm
      unfold processCard
      rw [cardEffect_obj, hcn]
      rfl
    | str s => cases h
    | num n => cases h
    | bool b => cases h
    | null => cases h
    | arr xs => cases h

theorem c5_witness :
    dlookup (build_entity_index ([] ++ [(entA, [])])) [] = some entA ∧
    processCard [] ([], 0) (Json.obj [("name".data, Json.str [])]) = some ([], 0) :=
  ⟨(c5_empty_names []).1 [] entA,
   (c5_empty_names []).2 [] 0 (Json.obj [("name".data, Json.str [])]) rfl⟩

/-- Claim C7, counterexample: for the name mapping
`{"en": "", "es": "Trancos"}` the resolved display name is the empty
string (and the record is skipped), even though Spanish is present and
non-empty — `dict.get` falls back only on an absent key, so the claimed
"empty string only when all are absent or empty" fails. -/
theorem c7_counterexample :
    resolvedName cardEnEmpty = some (Json.str []) ∧
    jget nameEnEmpty ("es".data) = some (Json.str "Trancos".data) ∧
    processCard idxG ([], 0) cardEnEmpty = some ([], 0) :=
  ⟨rfl, rfl, rfl⟩

/-- Claim C7, amended: the display name is resolved by key presence in
fixed order — the `'en'` value if that key is present (even when
empty), else the `'es'` value if present, else the `'fr'` value if
present, else the empty string; a record whose resolved name is empty
is skipped with no statements and no count. -/
theorem c7_name_resolution (idx : EIndex) :
    (∀ (nkvs : List (Str × Json)) (v : Json),
      jget nkvs ("en".data) = some v → resolveNameObj nkvs = v) ∧
    (∀ (nkvs : List (Str × Json)) (v : Json),
      jget nkvs ("en".data) = none → jget nkvs ("es".data) = some v →
      resolveNameObj nkvs = v) ∧
    (∀ (nkvs : List (Str × Json)) (v : Json),
      jget nkvs ("en".data) = none → jget nkvs ("es".data) = none →
      jget nkvs ("fr".data) = some v → resolveNameObj nkvs = v) ∧
    (∀ (nkvs : List (Str × Json)),
      jget nkvs ("en".data) = none → jget nkvs ("es".data) = none →
      jget nkvs ("fr".data) = none → resolveNameObj nkvs = Json.str []) ∧
    (∀ (g : Graph) (cnt : Nat) (card : Json),
      resolvedName card = some (Json.str []) →
      processCard idx (g, cnt) card = some (g, cnt)) := by
  refine ⟨?_, ?_, ?_, ?_, ?_⟩
  · intro nkvs v h
    unfold resolveNameObj
    rw [jgetD_of_some _ h]
  · intro nkvs v h1 h2
    unfold resolveNameObj
    rw [jgetD_of_none _ h1, jgetD_of_some _ h2]
  · intro nkvs v h1 h2 h3
    unfold resolveNameObj
    rw [jgetD_of_none _ h1, jgetD_of_none _ h2, jgetD_of_some _ h3]
  · intro nkvs h1 h2 h3
    unfold resolveNameObj
    rw [jgetD_of_none _ h1, jgetD_of_none _ h2, jgetD_of_none _ h3]
  · intro g cnt card h
    cases card with
    | obj kvs =>
      have hres := resolvedName_obj kvs
      rw [h] at hres
      have hcn : (match rawName kvs with
                  | .obj nkvs => resolveNameObj nkvs
                  | other => other) = Json.str [] :=
        (Option.some_inj.mp hres).symm
      unfold processCard
      rw [cardEffect_obj, hcn]
      rfl
    | str s => cases h
    | num n => cases h
    | bool b => cases h
    | null => cases h
    | arr xs => cases h

theorem c7_witness :
    resolveNameObj [("en".data, Json.str "Aragorn".data),
      ("es".data, Json.str "Trancos".data)] = Json.str "Aragorn".data :=
  (c7_name_resolution []).1
    [("en".data, Json.str "Aragorn".data), ("es".data, Json.str "Trancos".data)]
    (Json.str "Aragorn".data) rfl

/-- Claim C8: the card node identifier is a deterministic function of
the card record alone — `METW[str(card['id'])]` when the `'id'` key is
present, `METW[name.replace(' ', '_')]` otherwise — and the statements
emitted for a card use exactly that identifier whatever entity was
matched, so linking the same record twice mints the same identifier. -/
theorem c8_stable_identifiers :
    (∀ (kvs : List (Str × Json)) (name : Str) (v : Json),
      jget kvs ("id".data) = some v →
      cardUriOf kvs name = Term.uri (metwPrefix ++ pyStr v)) ∧
    (∀ (kvs : List (Str × Json)) (name : Str),
      jget kvs ("id".data) = none →
      cardUriOf kvs name = Term.uri (metwPrefix ++ underscore name)) ∧
    (∀ (e e' : Term) (kvs : List (Str × Json)) (name : Str),
      (cardStmts e kvs name).head? = some ⟨cardUriOf kvs name, rdfType, schemaThing⟩ ∧
      (cardStmts e kvs name).head? = (cardStmts e' kvs name).head?) := by
  refine ⟨?_, ?_, ?_⟩
  · intro kvs name v h
    unfold cardUriOf cardIdOf
    rw [jgetD_of_some _ h]
  · intro kvs name h
    unfold cardUriOf cardIdOf
    rw [jgetD_of_none _ h]
    rfl
  · intro e e' kvs name
    exact ⟨rfl, rfl⟩

theorem c8_witness :
    cardUriOf [("id".data, Json.num 5)] ("Gandalf the Grey".data) =
      Term.uri (metwPrefix ++ "5".data) ∧
    cardUriOf [] ("Gandalf the Grey".data) =
      Term.uri (metwPrefix ++ "Gandalf_the_Grey".data) :=
  ⟨c8_stable_identifiers.1 [("id".data, Json.num 5)] ("Gandalf the Grey".data)
      (Json.num 5) rfl,
   by
    have h := c8_stable_identifiers.2.1 [] ("Gandalf the Grey".data) rfl
    rw [h]
    rfl⟩

theorem enrich_unfold (idx : EIndex) (g : Graph) (payload : Json) :
    enrich_with_cards idx g payload =
      (match allCardsJson payload with
       | none => none
       | some ac =>
         match jsonLen ac with
         | none => none
         | some 0 => some (g, 0)
         | some _ =>
           match toCardList ac with
           | none => none
           | some cards => enrichCards idx g 0 cards) := rfl

/-- Claim C6, counterexample: a mapping payload whose top-level value
holds a `'cards'` member that is a sequence rather than a sub-mapping
does not fall back to the flat form — `set_data['cards'].items()`
raises `AttributeError` and the run aborts, while the claim dictates
the fallback chain ending in the empty sequence. -/
theorem c6_counterexample :
    allCardsJson payloadBadCards = none ∧
    enrich_with_cards [] [] payloadBadCards = none :=
  ⟨rfl, rfl⟩

theorem nestedSpec_cons_obj (k : Str) (kvs' : List (Str × Json)) (t : List (Str × Json)) :
    nestedSpec ((k, Json.obj kvs') :: t) =
      (match jget kvs' ("cards".data) with
       | some (Json.obj cs) => cs.map Prod.snd
       | _ => []) ++ nestedSpec t := rfl

theorem nestedOf_spec :
    ∀ (kvs : List (Str × Json)) (xs : List Json),
      nestedOf kvs = some xs → xs = nestedSpec kvs := by
  intro kvs
  induction kvs with
  | nil =>
    intro xs h
    cases h
    rfl
  | cons p t ih =>
    intro xs h
    obtain ⟨k, v⟩ := p
    cases v with
    | obj kvs' =>
      rw [nestedOf] at h
      cases hc : jget kvs' ("cards".data) with
      | none =>
        rw [hc] at h
        rw [nestedSpec_cons_obj, hc]
        exact ih xs h
      | some w =>
        cases w with
        | obj cs =>
          rw [hc] at h
          cases hrest : nestedOf t with
          | none => rw [hrest] at h; cases h
          | some rest =>
            rw [hrest] at h
            have h2 : some (List.map Prod.snd cs ++ rest) = some xs := h
            have h3 := Option.some_inj.mp h2
            rw [← h3, nestedSpec_cons_obj, hc]
            exact congrArg (List.map Prod.snd cs ++ ·) (ih rest hrest)
        | str s => rw [hc] at h; cases h
        | num n => rw [hc] at h; cases h
        | bool b => rw [hc] at h; cases h
        | null => rw [hc] at h; cases h
        | arr ys => rw [hc] at h; cases h
    | str s => exact ih xs h
    | num n => exact ih xs h
    | bool b => exact ih xs h
    | null => exact ih xs h
    | arr ys => exact ih xs h

/-- Claim C6, amended: payload-shape resolution follows the claimed
fixed order — nested-by-set collection first (equal to the declarative
flattening `nestedSpec` whenever it completes), with fallback to the
top-level `'cards'` value, then `'data'`, then the empty sequence, if
and only if the collection is empty, and a non-mapping payload used
directly — except that a top-level value whose `'cards'` member is not
a mapping aborts the run with a type error instead of falling through. -/
theorem c6_shape_resolution :
    (∀ (kvs : List (Str × Json)) (xs : List Json),
      nestedOf kvs = some xs → xs = nestedSpec kvs) ∧
    (∀ kvs : List (Str × Json), nestedOf kvs = some [] →
      allCardsJson (Json.obj kvs) =
        some (jgetD kvs ("cards".data) (jgetD kvs ("data".data) (Json.arr [])))) ∧
    (∀ (kvs : List (Str × Json)) (xs : List Json),
      nestedOf kvs = some xs → xs ≠ [] →
      allCardsJson (Json.obj kvs) = some (Json.arr xs)) ∧
    (∀ kvs : List (Str × Json), nestedOf kvs = none →
      allCardsJson (Json.obj kvs) = none) ∧
    (∀ j : Json, (∀ kvs, j ≠ Json.obj kvs) → allCardsJson j = some j) := by
  have hobj : ∀ kvs : List (Str × Json), allCardsJson (Json.obj kvs) =
      (match nestedOf kvs with
       | none => none
       | some [] => some (jgetD kvs ("cards".data) (jgetD kvs ("data".data) (Json.arr [])))
       | some xs => some (Json.arr xs)) := fun _ => rfl
  refine ⟨nestedOf_spec, ?_, ?_, ?_, ?_⟩
  · intro kvs h
    rw [hobj, h]
  · intro kvs xs h hne
    rw [hobj, h]
    cases xs with
    | nil => exact absurd rfl hne
    | cons x t => rfl
  · intro kvs h
    rw [hobj, h]
  · intro j hj
    cases j with
    | obj kvs => exact absurd rfl (hj kvs)
    | str s => rfl
    | num n => rfl
    | bool b => rfl
    | null => rfl
    | arr xs => rfl

theorem c6_witness :
    nestedOf [("AS".data, Json.obj [("cards".data, Json.obj [("1".data, Json.str ("c".data))])])] =
      some [Json.str ("c".data)] ∧
    allCardsJson (Json.obj
        [("AS".data, Json.obj [("cards".data, Json.obj [("1".data, Json.str ("c".data))])])]) =
      some (Json.arr [Json.str ("c".data)]) ∧
    allCardsJson (Json.obj [("cards".data, Json.arr [Json.str ("x".data)])]) =
      some (Json.arr [Json.str ("x".data)]) ∧
    allCardsJson (Json.num 7) = some (Json.num 7) :=
  ⟨rfl,
   c6_shape_resolution.2.2.1
     [("AS".data, Json.obj [("cards".data, Json.obj [("1".data, Json.str ("c".data))])])]
     [Json.str ("c".data)] rfl (by simp),
   c6_shape_resolution.2.1 [("cards".data, Json.arr [Json.str ("x".data)])] rfl,
   c6_shape_resolution.2.2.2.2 (Json.num 7) (fun kvs h => Json.noConfusion h)⟩

theorem processCard_mono {idx : EIndex} {g : Graph} {cnt : Nat} {c : Json}
    {g1 : Graph} {cnt1 : Nat} (h : processCard idx (g, cnt) c = some (g1, cnt1)) :
    ∀ st ∈ g, st ∈ g1 := by
  unfold processCard at h
  cases hce : cardEffect idx c with
  | none => rw [hce] at h; cases h
  | some ld =>
    rw [hce] at h
    obtain ⟨l, d⟩ := ld
    simp only [Option.some.injEq, Prod.mk.injEq] at h
    intro st hst
    rw [← h.1]
    exact mem_graphAddAll_of_mem hst

theorem enrichCards_mono {idx : EIndex} :
    ∀ (cards : List Json) (g : Graph) (cnt : Nat) (g' : Graph) (n' : Nat),
      enrichCards idx g cnt cards = some (g', n') → ∀ st ∈ g, st ∈ g' := by
  intro cards
  induction cards with
  | nil =>
    intro g cnt g' n' h st hst
    unfold enrichCards at h
    simp only [Option.some.injEq, Prod.mk.injEq] at h
    rw [← h.1]
    exact hst
  | cons c cs ih =>
    intro g cnt g' n' h st hst
    unfold enrichCards at h
    cases hp : processCard idx (g, cnt) c with
    | none => rw [hp] at h; cases h
    | some acc1 =>
      rw [hp] at h
      obtain ⟨g1, cnt1⟩ := acc1
      exact ih g1 cnt1 g' n' h st (processCard_mono hp st hst)

/-- Claim C9: `enrich_with_cards` only inserts statements — on every
run that completes, every statement present in the graph before the
call is still present after it. -/
theorem c9_insertion_only (idx : EIndex) (g : Graph) (payload : Json)
    (g' : Graph) (n : Nat) (h : enrich_with_cards idx g payload = some (g', n)) :
    ∀ st ∈ g, st ∈ g' := by
  intro st hst
  unfold enrich_with_cards at h
  split at h
  · cases h
  · split at h
    · cases h
    · simp only [Option.some.injEq, Prod.mk.injEq] at h
      rw [← h.1]
      exact hst
    · split at h
      · cases h
      · exact enrichCards_mono _ g 0 g' n h st hst

theorem c9_witness :
    enrich_with_cards idxG [⟨entB, schemaName, Term.lit ("x".data) none⟩]
        (Json.arr []) =
      some ([⟨entB, schemaName, Term.lit ("x".data) none⟩], 0) ∧
    (⟨entB, schemaName, Term.lit ("x".data) none⟩ : Stmt) ∈
      [(⟨entB, schemaName, Term.lit ("x".data) none⟩ : Stmt)] :=
  ⟨rfl,
   c9_insertion_only idxG [⟨entB, schemaName, Term.lit ("x".data) none⟩]
     (Json.arr []) [⟨entB, schemaName, Term.lit ("x".data) none⟩] 0 rfl
     ⟨entB, schemaName, Term.lit ("x".data) none⟩ (List.mem_singleton.mpr rfl)⟩

theorem enrichCards_idem {idx : EIndex} :
    ∀ (cards : List Json) (g : Graph) (cnt : Nat) (g' : Graph) (n' : Nat),
      enrichCards idx g cnt cards = some (g', n') →
      enrichCards idx g' cnt cards = some (g', n') := by
  intro cards
  induction cards with
  | nil =>
    intro g cnt g' n' h
    unfold enrichCards at h ⊢
    simp only [Option.some.injEq, Prod.mk.injEq] at h
    rw [h.2]
  | cons c cs ih =>
    intro g cnt g' n' h
    unfold enrichCards at h
    cases hce : cardEffect idx c with
    | none =>
      rw [show processCard idx (g, cnt) c = none by
        unfold processCard; rw [hce]] at h
      cases h
    | some ld =>
      obtain ⟨l, d⟩ := ld
      rw [show processCard idx (g, cnt) c = some (graphAddAll g l, cnt + d) by
        unfold processCard; rw [hce]] at h
      have hsub : ∀ t ∈ l, t ∈ g' := fun t ht =>
        enrichCards_mono cs (graphAddAll g l) (cnt + d) g' n' h t
          (mem_graphAddAll_of_mem_list ht)
      unfold enrichCards
      rw [show processCard idx (g', cnt) c = some (graphAddAll g' l, cnt + d) by
        unfold processCard; rw [hce]]
      rw [graphAddAll_of_subset hsub]
      exact ih (graphAddAll g l) (cnt + d) g' n' h

/-- Claim C10: the statement collection has set semantics — adding an
already-present triple leaves the graph unchanged — and therefore
re-running `enrich_with_cards` with the same catalog over the already
enriched graph (same enricher, hence same index) returns the same
graph, hence the same triple count: the anticipated duplication never
materializes. -/
theorem c10_rerun_is_noop :
    (∀ (g : Graph) (t : Stmt), t ∈ g → graphAdd g t = g) ∧
    (∀ (idx : EIndex) (g : Graph) (payload : Json) (g' : Graph) (n : Nat),
      enrich_with_cards idx g payload = some (g', n) →
      enrich_with_cards idx g' payload = some (g', n)) := by
  constructor
  · intro g t ht
    exact graphAdd_of_mem ht
  · intro idx g payload g' n h
    rcases hac : allCardsJson payload with _ | ac
    · rw [enrich_unfold, hac] at h
      exact Option.noConfusion h
    · rcases hlen : jsonLen ac with _ | m
      · simp only [enrich_unfold, hac, hlen] at h
        exact Option.noConfusion h
      · rcases m with _ | m'
        · simp only [enrich_unfold, hac, hlen] at h
          simp only [enrich_unfold, hac, hlen]
          simp only [Option.some.injEq, Prod.mk.injEq] at h
          rw [← h.1, ← h.2]
        · rcases htc : toCardList ac with _ | cards
          · simp only [enrich_unfold, hac, hlen, htc] at h
            exact Option.noConfusion h
          · simp only [enrich_unfold, hac, hlen, htc] at h ⊢
            exact enrichCards_idem cards g 0 g' n h

theorem c10_witness :
    graphAdd [(⟨entB, schemaName, Term.lit ("x".data) none⟩ : Stmt)]
        ⟨entB, schemaName, Term.lit ("x".data) none⟩ =
      [⟨entB, schemaName, Term.lit ("x".data) none⟩] ∧
    enrich_with_cards idxG
        [⟨Term.uri (metwPrefix ++ "Gandalf".data), rdfType, schemaThing⟩,
         ⟨Term.uri (metwPrefix ++ "Gandalf".data), rdfsLabel, Term.lit ("Gandalf".data) enLang⟩,
         ⟨entA, schemaSubjectOf, Term.uri (metwPrefix ++ "Gandalf".data)⟩]
        (Json.arr [Json.obj [("name".data, Json.str "Gandalf".data)]]) =
      some ([⟨Term.uri (metwPrefix ++ "Gandalf".data), rdfType, schemaThing⟩,
             ⟨Term.uri (metwPrefix ++ "Gandalf".data), rdfsLabel, Term.lit ("Gandalf".data) enLang⟩,
             ⟨entA, schemaSubjectOf, Term.uri (metwPrefix ++ "Gandalf".data)⟩], 1) :=
  ⟨c10_rerun_is_noop.1 _ _ (List.mem_singleton.mpr rfl),
   c10_rerun_is_noop.2 idxG []
     (Json.arr [Json.obj [("name".data, Json.str "Gandalf".data)]]) _ 1 rfl⟩

/-!
## Self-similarity: `ratio(s, s) = 1`

The scan of `find_longest_match` on two copies of `s` over the full
interval is characterized row by row: after row `i` the `j2len` row
equals `mChain s i ·`, and the best block is always a diagonal one of
size `bigM`.  The subsequent extension loops then widen any diagonal
block to the whole string, so the single matching block is
`(0, 0, |s|)` and the ratio is `1`. -/

theorem get?_getD {s : Str} {i : Nat} (h : i < s.length) :
    s.get? i = some (s.getD i ' ') := by
  cases hv : s.get? i with
  | none =>
    rw [List.get?_eq_none] at hv
    omega
  | some v =>
    rw [List.getD_eq_get?, hv]
    rfl

theorem getD_eq_of_get? {s : Str} {j : Nat} {v : Char} (h : s.get? j = some v) :
    s.getD j ' ' = v := by
  rw [List.getD_eq_get?, h]
  rfl

theorem lt_length_of_get? {s : Str} {j : Nat} {v : Char} (h : s.get? j = some v) :
    j < s.length := by
  by_contra hc
  rw [List.get?_eq_none.mpr (by omega)] at h
  cases h

theorem cellOK_diag_left {s : Str} {i j : Nat} (hi : i < s.length) (h : cellOK s i j) :
    cellOK s i i :=
  ⟨get?_getD hi, h.2⟩

theorem cellOK_diag_right {s : Str} {i j : Nat} (h : cellOK s i j) : cellOK s j j := by
  have hj : j < s.length := lt_length_of_get? h.1
  have hd : s.getD j ' ' = s.getD i ' ' := getD_eq_of_get? h.1
  exact ⟨by rw [get?_getD hj, hd], by rw [hd]; exact h.2⟩

theorem mChain_zero_eq (s : Str) (j : Nat) :
    mChain s 0 j = if cellOK s 0 j then 1 else 0 := rfl

theorem mChain_succ_zero_eq (s : Str) (i : Nat) :
    mChain s (i + 1) 0 = if cellOK s (i + 1) 0 then 1 else 0 := rfl

theorem mChain_succ_succ_eq (s : Str) (i j : Nat) :
    mChain s (i + 1) (j + 1) =
      if cellOK s (i + 1) (j + 1) then mChain s i j + 1 else 0 := rfl

theorem mChain_of_not {s : Str} {i j : Nat} (h : ¬ cellOK s i j) : mChain s i j = 0 := by
  match i, j with
  | 0, j => rw [mChain_zero_eq, if_neg h]
  | i + 1, 0 => rw [mChain_succ_zero_eq, if_neg h]
  | i + 1, j + 1 => rw [mChain_succ_succ_eq, if_neg h]

theorem mChain_pos {s : Str} {i j : Nat} (h : cellOK s i j) : 1 ≤ mChain s i j := by
  match i, j with
  | 0, j => rw [mChain_zero_eq, if_pos h]
  | i + 1, 0 => rw [mChain_succ_zero_eq, if_pos h]
  | i + 1, j + 1 => rw [mChain_succ_succ_eq, if_pos h]; omega

theorem mChain_succ {s : Str} {i j : Nat} (h : cellOK s (i + 1) (j + 1)) :
    mChain s (i + 1) (j + 1) = mChain s i j + 1 := by
  rw [mChain_succ_succ_eq, if_pos h]

theorem mChain_base_left {s : Str} {j : Nat} (h : cellOK s 0 j) : mChain s 0 j = 1 := by
  rw [mChain_zero_eq, if_pos h]

theorem mChain_base_right {s : Str} {i : Nat} (h : cellOK s i 0) : mChain s i 0 = 1 := by
  match i with
  | 0 => rw [mChain_zero_eq, if_pos h]
  | i + 1 => rw [mChain_succ_zero_eq, if_pos h]

theorem mChain_le_bounds {s : Str} : ∀ i j, mChain s i j ≤ i + 1 ∧ mChain s i j ≤ j + 1 := by
  intro i
  induction i with
  | zero =>
    intro j
    by_cases h : cellOK s 0 j
    · rw [mChain_base_left h]; omega
    · rw [mChain_of_not h]; omega
  | succ i ih =>
    intro j
    by_cases h : cellOK s (i + 1) j
    · match j with
      | 0 => rw [mChain_base_right h]; omega
      | j + 1 =>
        rw [mChain_succ h]
        have := ih j
        omega
    · rw [mChain_of_not h]; omega

theorem mChain_le_right {s : Str} : ∀ i j, mChain s i j ≤ mChain s j j := by
  intro i
  induction i with
  | zero =>
    intro j
    by_cases h : cellOK s 0 j
    · rw [mChain_base_left h]
      exact mChain_pos (cellOK_diag_right h)
    · rw [mChain_of_not h]
      omega
  | succ i ih =>
    intro j
    by_cases h : cellOK s (i + 1) j
    · match j with
      | 0 =>
        rw [mChain_base_right h]
        exact mChain_pos (cellOK_diag_right h)
      | j + 1 =>
        rw [mChain_succ h, mChain_succ (cellOK_diag_right h)]
        exact Nat.add_le_add_right (ih j) 1
    · rw [mChain_of_not h]
      omega

theorem mChain_le_left {s : Str} : ∀ i j, i < s.length → mChain s i j ≤ mChain s i i := by
  intro i
  induction i with
  | zero =>
    intro j hi
    by_cases h : cellOK s 0 j
    · rw [mChain_base_left h]
      exact mChain_pos (cellOK_diag_left hi h)
    · rw [mChain_of_not h]
      omega
  | succ i ih =>
    intro j hi
    by_cases h : cellOK s (i + 1) j
    · match j with
      | 0 =>
        rw [mChain_base_right h]
        exact mChain_pos (cellOK_diag_left hi h)
      | j + 1 =>
        rw [mChain_succ h, mChain_succ (cellOK_diag_left hi h)]
        exact Nat.add_le_add_right (ih j (by omega)) 1
    · rw [mChain_of_not h]
      omega

theorem rr_le_bigM {s : Str} : ∀ i j, j < i → rr s j ≤ bigM s i := by
  intro i
  induction i with
  | zero => intro j h; omega
  | succ i ih =>
    intro j h
    rcases Nat.lt_succ_iff_lt_or_eq.mp h with h1 | h1
    · calc rr s j ≤ bigM s i := ih j h1
        _ ≤ max (bigM s i) (rr s i) := Nat.le_max_left _ _
    · subst h1
      exact Nat.le_max_right _ _

theorem mem_b2j {b : Str} {c : Char} {j : Nat} :
    j ∈ b2j b c ↔ (b.get? j = some c ∧ isPopular b c = false) := by
  unfold b2j
  by_cases hp : isPopular b c
  · rw [if_pos hp]
    simp [hp]
  · rw [if_neg hp]
    unfold positions
    rw [List.mem_filter]
    constructor
    · intro ⟨_, h2⟩
      refine ⟨of_decide_eq_true h2, by simp [hp]⟩
    · intro ⟨h1, _⟩
      exact ⟨List.mem_range.mpr (lt_length_of_get? h1), decide_eq_true h1⟩

theorem b2j_pairwise (b : Str) (c : Char) : (b2j b c).Pairwise (· < ·) := by
  unfold b2j
  split
  · exact List.Pairwise.nil
  · exact List.Pairwise.filter _ (List.pairwise_lt_range b.length)

theorem sorted_split {l : List Nat} {i : Nat} (hs : l.Pairwise (· < ·)) (hi : i ∈ l) :
    ∃ L1 L2, l = L1 ++ i :: L2 ∧ (∀ x ∈ L1, x < i) ∧ (∀ x ∈ L2, i < x) := by
  obtain ⟨L1, L2, rfl⟩ := List.append_of_mem hi
  refine ⟨L1, L2, rfl, ?_, ?_⟩
  · intro x hx
    have h := (List.pairwise_append.mp hs).2.2
    exact h x hx i (List.mem_cons_self _ _)
  · intro x hx
    have h := List.pairwise_cons.mp (List.pairwise_append.mp hs).2.1
    exact h.1 x hx

theorem cell_value {s : Str} {i : Nat} {prev : Nat → Nat}
    (hprev : ∀ x, prev x = prevRow s i x) {j : Nat} (hok : cellOK s i j) :
    (if j = 0 then 0 else prev (j - 1)) + 1 = mChain s i j := by
  match i, j with
  | i, 0 => rw [if_pos rfl, mChain_base_right hok]
  | 0, j + 1 =>
    rw [if_neg (by omega), hprev (j + 1 - 1), mChain_base_left hok]
    rfl
  | i + 1, j + 1 =>
    rw [if_neg (by omega), hprev (j + 1 - 1), mChain_succ hok]
    rfl

theorem cellStep_j2len (prev : Nat → Nat) (i : Nat) (st : FLM) (j : Nat) :
    (cellStep prev i st j).j2len =
      fun x => if x = j then (if j = 0 then 0 else prev (j - 1)) + 1 else st.j2len x := by
  have hcell : cellStep prev i st j =
      if st.bestsize < (if j = 0 then 0 else prev (j - 1)) + 1 then
        ⟨i + 1 - ((if j = 0 then 0 else prev (j - 1)) + 1),
         j + 1 - ((if j = 0 then 0 else prev (j - 1)) + 1),
         (if j = 0 then 0 else prev (j - 1)) + 1,
         fun x => if x = j then (if j = 0 then 0 else prev (j - 1)) + 1 else st.j2len x⟩
      else ⟨st.besti, st.bestj, st.bestsize,
         fun x => if x = j then (if j = 0 then 0 else prev (j - 1)) + 1 else st.j2len x⟩ := rfl
  rw [hcell]
  by_cases h : st.bestsize < (if j = 0 then 0 else prev (j - 1)) + 1
  · rw [if_pos h]
  · rw [if_neg h]

theorem cellStep_best_le {prev : Nat → Nat} {i : Nat} {st : FLM} {j : Nat}
    (h : ¬ (st.bestsize < (if j = 0 then 0 else prev (j - 1)) + 1)) :
    (cellStep prev i st j).besti = st.besti ∧
    (cellStep prev i st j).bestj = st.bestj ∧
    (cellStep prev i st j).bestsize = st.bestsize := by
  have hcell : cellStep prev i st j =
      if st.bestsize < (if j = 0 then 0 else prev (j - 1)) + 1 then
        ⟨i + 1 - ((if j = 0 then 0 else prev (j - 1)) + 1),
         j + 1 - ((if j = 0 then 0 else prev (j - 1)) + 1),
         (if j = 0 then 0 else prev (j - 1)) + 1,
         fun x => if x = j then (if j = 0 then 0 else prev (j - 1)) + 1 else st.j2len x⟩
      else ⟨st.besti, st.bestj, st.bestsize,
         fun x => if x = j then (if j = 0 then 0 else prev (j - 1)) + 1 else st.j2len x⟩ := rfl
  rw [hcell, if_neg h]
  exact ⟨rfl, rfl, rfl⟩

theorem cellStep_best_gt {prev : Nat → Nat} {i : Nat} {st : FLM} {j : Nat}
    (h : st.bestsize < (if j = 0 then 0 else prev (j - 1)) + 1) :
    (cellStep prev i st j).besti = i + 1 - ((if j = 0 then 0 else prev (j - 1)) + 1) ∧
    (cellStep prev i st j).bestj = j + 1 - ((if j = 0 then 0 else prev (j - 1)) + 1) ∧
    (cellStep prev i st j).bestsize = (if j = 0 then 0 else prev (j - 1)) + 1 := by
  have hcell : cellStep prev i st j =
      if st.bestsize < (if j = 0 then 0 else prev (j - 1)) + 1 then
        ⟨i + 1 - ((if j = 0 then 0 else prev (j - 1)) + 1),
         j + 1 - ((if j = 0 then 0 else prev (j - 1)) + 1),
         (if j = 0 then 0 else prev (j - 1)) + 1,
         fun x => if x = j then (if j = 0 then 0 else prev (j - 1)) + 1 else st.j2len x⟩
      else ⟨st.besti, st.bestj, st.bestsize,
         fun x => if x = j then (if j = 0 then 0 else prev (j - 1)) + 1 else st.j2len x⟩ := rfl
  rw [hcell, if_pos h]
  exact ⟨rfl, rfl, rfl⟩

theorem fold_j2len {s : Str} {i : Nat} {prev : Nat → Nat}
    (hprev : ∀ x, prev x = prevRow s i x) :
    ∀ (L : List Nat) (st : FLM), (∀ j ∈ L, cellOK s i j) →
      ∀ x, (L.foldl (cellStep prev i) st).j2len x =
        if x ∈ L then mChain s i x else st.j2len x := by
  intro L
  induction L with
  | nil =>
    intro st _ x
    simp
  | cons j L' ih =>
    intro st hok x
    rw [List.foldl_cons,
      ih (cellStep prev i st j) (fun u hu => hok u (List.mem_cons_of_mem _ hu)) x]
    by_cases hxL : x ∈ L'
    · rw [if_pos hxL, if_pos (List.mem_cons_of_mem _ hxL)]
    · rw [if_neg hxL, cellStep_j2len]
      simp only
      by_cases hxj : x = j
      · subst hxj
        rw [if_pos rfl, if_pos (List.mem_cons_self _ _),
          cell_value hprev (hok x (List.mem_cons_self _ _))]
      · rw [if_neg hxj, if_neg (by
          intro hc
          rcases List.mem_cons.mp hc with h | h
          · exact hxj h
          · exact hxL h)]

theorem fold_best_stable {s : Str} {i : Nat} {prev : Nat → Nat}
    (hprev : ∀ x, prev x = prevRow s i x) :
    ∀ (L : List Nat) (st : FLM), (∀ j ∈ L, cellOK s i j) →
      (∀ j ∈ L, mChain s i j ≤ st.bestsize) →
      (L.foldl (cellStep prev i) st).besti = st.besti ∧
      (L.foldl (cellStep prev i) st).bestj = st.bestj ∧
      (L.foldl (cellStep prev i) st).bestsize = st.bestsize := by
  intro L
  induction L with
  | nil =>
    intro st _ _
    exact ⟨rfl, rfl, rfl⟩
  | cons j L' ih =>
    intro st hok hle
    have hokj := hok j (List.mem_cons_self _ _)
    have hK : ¬ (st.bestsize < (if j = 0 then 0 else prev (j - 1)) + 1) := by
      rw [cell_value hprev hokj]
      exact not_lt.mpr (hle j (List.mem_cons_self _ _))
    obtain ⟨e1, e2, e3⟩ := @cellStep_best_le prev i st j hK
    rw [List.foldl_cons]
    obtain ⟨f1, f2, f3⟩ := ih (cellStep prev i st j)
      (fun u hu => hok u (List.mem_cons_of_mem _ hu))
      (fun u hu => by rw [e3]; exact hle u (List.mem_cons_of_mem _ hu))
    exact ⟨f1.trans e1, f2.trans e2, f3.trans e3⟩

/-- One row of the scan on `(s, s)` over the full interval: the new
`j2len` row is `mChain s i ·`, the best block stays diagonal with size
`bigM s (i+1)`, and its end stays within the string. -/
theorem row_step (s : Str) (i : Nat) (hi : i < s.length) (st : FLM)
    (hprev : ∀ x, st.j2len x = prevRow s i x)
    (hb1 : st.besti = st.bestj) (hb2 : st.bestsize = bigM s i)
    (hb3 : st.bestj + st.bestsize ≤ s.length) :
    (∀ x, (outerStep s s 0 s.length st i).j2len x = prevRow s (i + 1) x) ∧
    (outerStep s s 0 s.length st i).besti = (outerStep s s 0 s.length st i).bestj ∧
    (outerStep s s 0 s.length st i).bestsize = bigM s (i + 1) ∧
    (outerStep s s 0 s.length st i).bestj + (outerStep s s 0 s.length st i).bestsize ≤
      s.length := by
  have hfil : (b2j s (s.getD i ' ')).filter
      (fun j => decide (0 ≤ j) && decide (j < s.length)) = b2j s (s.getD i ' ') := by
    apply List.filter_eq_self.mpr
    intro j hj
    have hj' := mem_b2j.mp hj
    have hjn : j < s.length := lt_length_of_get? hj'.1
    simp [hjn]
  have houter : outerStep s s 0 s.length st i =
      (b2j s (s.getD i ' ')).foldl (cellStep st.j2len i)
        ⟨st.besti, st.bestj, st.bestsize, fun _ => 0⟩ := by
    unfold outerStep
    rw [hfil]
  rw [houter]
  by_cases hpop : isPopular s (s.getD i ' ') = true
  · have hb2j : b2j s (s.getD i ' ') = [] := by
      unfold b2j
      rw [if_pos hpop]
    rw [hb2j]
    have hnotok : ∀ x, ¬ cellOK s i x := by
      intro x hok
      rw [hok.2] at hpop
      cases hpop
    have hrr : rr s i = 0 := mChain_of_not (hnotok i)
    refine ⟨fun x => (mChain_of_not (hnotok x)).symm, hb1, ?_, ?_⟩
    · show st.bestsize = bigM s (i + 1)
      rw [hb2, show bigM s (i + 1) = max (bigM s i) (rr s i) from rfl, hrr]
      omega
    · exact hb3
  · have hpop' : isPopular s (s.getD i ' ') = false := by
      revert hpop
      cases isPopular s (s.getD i ' ') <;> simp
    have hmemiff : ∀ j, j ∈ b2j s (s.getD i ' ') ↔ cellOK s i j := fun j => mem_b2j
    have hall : ∀ j ∈ b2j s (s.getD i ' '), cellOK s i j := fun j hj => (hmemiff j).mp hj
    have hii : i ∈ b2j s (s.getD i ' ') := (hmemiff i).mpr ⟨get?_getD hi, hpop'⟩
    have hokii : cellOK s i i := ⟨get?_getD hi, hpop'⟩
    obtain ⟨L1, L2, hsplit, hL1, hL2⟩ := sorted_split (b2j_pairwise s (s.getD i ' ')) hii
    have hj2 : ∀ x, ((b2j s (s.getD i ' ')).foldl (cellStep st.j2len i)
        ⟨st.besti, st.bestj, st.bestsize, fun _ => 0⟩).j2len x = prevRow s (i + 1) x := by
      intro x
      rw [fold_j2len hprev (b2j s (s.getD i ' '))
        ⟨st.besti, st.bestj, st.bestsize, fun _ => 0⟩ hall x]
      by_cases hx : x ∈ b2j s (s.getD i ' ')
      · rw [if_pos hx]
        rfl
      · rw [if_neg hx]
        show (0 : Nat) = prevRow s (i + 1) x
        have := mChain_of_not (fun hok => hx ((hmemiff x).mpr hok))
        show (0 : Nat) = mChain s i x
        omega
    refine ⟨hj2, ?_⟩
    rw [hsplit, List.foldl_append, List.foldl_cons]
    have hallL1 : ∀ j ∈ L1, cellOK s i j := fun j hj =>
      hall j (by rw [hsplit]; exact List.mem_append_left _ hj)
    have hallL2 : ∀ j ∈ L2, cellOK s i j := fun j hj =>
      hall j (by rw [hsplit]; exact List.mem_append_right _ (List.mem_cons_of_mem _ hj))
    set st0 : FLM := ⟨st.besti, st.bestj, st.bestsize, fun _ => 0⟩ with hst0
    set stA := L1.foldl (cellStep st.j2len i) st0 with hstA
    obtain ⟨a1, a2, a3⟩ := fold_best_stable hprev L1 st0 hallL1
      (by
        intro j hj
        show mChain s i j ≤ st0.bestsize
        have hst0b : st0.bestsize = st.bestsize := rfl
        rw [hst0b, hb2]
        calc mChain s i j ≤ mChain s j j := mChain_le_right i j
          _ ≤ bigM s i := rr_le_bigM i j (hL1 j hj))
    have ha1 : stA.besti = st.besti := a1
    have ha2 : stA.bestj = st.bestj := a2
    have ha3 : stA.bestsize = st.bestsize := a3
    have hKval := cell_value hprev hokii
    set stB := cellStep st.j2len i stA i with hstB
    have hRle : mChain s i i ≤ i + 1 := (mChain_le_bounds i i).1
    by_cases hcmp : stA.bestsize < mChain s i i
    · have hgt : stA.bestsize < (if i = 0 then 0 else st.j2len (i - 1)) + 1 := by
        rw [hKval]
        exact hcmp
      obtain ⟨b1, b2, b3⟩ := @cellStep_best_gt st.j2len i stA i hgt
      have hb1' : stB.besti = i + 1 - mChain s i i := by rw [hstB, b1, hKval]
      have hb2' : stB.bestj = i + 1 - mChain s i i := by rw [hstB, b2, hKval]
      have hb3' : stB.bestsize = mChain s i i := by rw [hstB, b3, hKval]
      obtain ⟨c1, c2, c3⟩ := fold_best_stable hprev L2 stB hallL2
        (by
          intro j hj
          rw [hb3']
          exact mChain_le_left i j hi)
      have hrr_gt : bigM s i < rr s i := by
        rw [← hb2, ← ha3]
        exact hcmp
      refine ⟨?_, ?_, ?_⟩
      · rw [c1, c2, hb1', hb2']
      · rw [c3, hb3']
        show mChain s i i = bigM s (i + 1)
        have : bigM s (i + 1) = max (bigM s i) (rr s i) := rfl
        rw [this, Nat.max_eq_right (Nat.le_of_lt hrr_gt)]
        rfl
      · rw [c2, c3, hb2', hb3']
        omega
    · have hle : ¬ (stA.bestsize < (if i = 0 then 0 else st.j2len (i - 1)) + 1) := by
        rw [hKval]
        exact hcmp
      obtain ⟨b1, b2, b3⟩ := @cellStep_best_le st.j2len i stA i hle
      have hrr_le : rr s i ≤ bigM s i := by
        have := not_lt.mp hcmp
        rw [ha3, hb2] at this
        exact this
      obtain ⟨c1, c2, c3⟩ := fold_best_stable hprev L2 stB hallL2
        (by
          intro j hj
          rw [hstB, b3, ha3, hb2]
          calc mChain s i j ≤ mChain s i i := mChain_le_left i j hi
            _ ≤ bigM s i := hrr_le)
      refine ⟨?_, ?_, ?_⟩
      · rw [c1, c2, hstB, b1, b2, ha1, ha2, hb1]
      · rw [c3, hstB, b3, ha3, hb2]
        show bigM s i = bigM s (i + 1)
        have : bigM s (i + 1) = max (bigM s i) (rr s i) := rfl
        rw [this, Nat.max_eq_left hrr_le]
      · rw [c2, c3, hstB, b2, b3, ha2, ha3]
        exact hb3

theorem phase1_self (s : Str) :
    (phase1 s s 0 s.length 0 s.length).besti = (phase1 s s 0 s.length 0 s.length).bestj ∧
    (phase1 s s 0 s.length 0 s.length).bestsize = bigM s s.length ∧
    (phase1 s s 0 s.length 0 s.length).bestj +
      (phase1 s s 0 s.length 0 s.length).bestsize ≤ s.length := by
  have h := foldl_range'_inv
    (fun i t => (∀ x, t.j2len x = prevRow s i x) ∧ t.besti = t.bestj ∧
      t.bestsize = bigM s i ∧ t.bestj + t.bestsize ≤ s.length)
    (outerStep s s 0 s.length) s.length 0 ⟨0, 0, 0, fun _ => 0⟩
    ⟨fun x => rfl, rfl, rfl, show 0 + 0 ≤ s.length by omega⟩
    (fun i t hi1 hi2 ht => by
      obtain ⟨p1, p2, p3, p4⟩ := ht
      exact row_step s i (by omega) t p1 p2 p3 p4)
  rw [Nat.zero_add] at h
  have hphase : phase1 s s 0 s.length 0 s.length =
      (List.range' 0 s.length).foldl (outerStep s s 0 s.length) ⟨0, 0, 0, fun _ => 0⟩ := by
    unfold phase1
    rw [Nat.sub_zero]
  rw [hphase]
  exact ⟨h.2.1, h.2.2.1, h.2.2.2⟩

theorem extendBack_self (s : Str) : ∀ d B, extendBack s s 0 0 d d B = (0, 0, B + d) := by
  intro d
  induction d with
  | zero => intro B; rfl
  | succ d ih =>
    intro B
    rw [extendBack, if_pos ⟨by omega, by omega, rfl, rfl⟩]
    have : d + 1 - 1 = d := rfl
    rw [this, ih (B + 1)]
    have : B + 1 + d = B + (d + 1) := by omega
    rw [this]

theorem extendFwdLoop_self (s : Str) :
    ∀ fuel K, fuel = s.length - K → K ≤ s.length →
      extendFwdLoop s s s.length s.length 0 0 fuel K = s.length := by
  intro fuel
  induction fuel with
  | zero =>
    intro K h1 h2
    have : K = s.length := by omega
    rw [extendFwdLoop, this]
  | succ f ih =>
    intro K h1 h2
    have hK : K < s.length := by omega
    rw [extendFwdLoop, if_pos ⟨by omega, by omega, rfl, rfl⟩]
    exact ih (K + 1) (by omega) (by omega)

theorem extendFwd_self (s : Str) (K : Nat) (h : K ≤ s.length) :
    extendFwd s s s.length s.length 0 0 K = s.length := by
  unfold extendFwd
  exact extendFwdLoop_self s (s.length - (0 + K)) K (by omega) h

/-- On two copies of `s` over the full interval, `find_longest_match`
returns the whole string: the scan leaves a diagonal best block and the
extension loops widen it to `(0, 0, |s|)`. -/
theorem flm_self (s : Str) :
    findLongestMatch s s 0 s.length 0 s.length = (0, 0, s.length) := by
  rw [findLongestMatch_eq]
  simp only
  obtain ⟨p1, p2, p3⟩ := phase1_self s
  rw [p1, extendBack_self s (phase1 s s 0 s.length 0 s.length).bestj
      (phase1 s s 0 s.length 0 s.length).bestsize]
  simp only
  rw [extendFwd_self s _ (by omega)]

theorem mbQueue_nil (a b : Str) (fuel : Nat) (acc : List (Nat × Nat × Nat)) :
    mbQueue a b fuel [] acc = acc := by
  cases fuel <;> rfl

theorem mbQueue_self (s : Str) :
    mbQueue s s (s.length + s.length + 1) [(0, s.length, 0, s.length)] [] =
      if s.length = 0 then [] else [(0, 0, s.length)] := by
  by_cases hn : s.length = 0
  · rw [if_pos hn, mbQueue]
    simp only [flm_self]
    rw [if_pos hn, mbQueue_nil]
  · rw [if_neg hn, mbQueue]
    simp only [flm_self]
    rw [if_neg hn, if_neg (by simp), if_neg (by omega), mbQueue_nil, List.nil_append]

theorem getMatchingBlocks_self (s : Str) :
    getMatchingBlocks s s =
      (if s.length = 0 then [] else [(0, 0, s.length)]) ++ [(s.length, s.length, 0)] := by
  by_cases hn : s.length = 0
  · rw [if_pos hn]
    unfold getMatchingBlocks
    rw [mbQueue_self, if_pos hn]
    rfl
  · rw [if_neg hn]
    unfold getMatchingBlocks
    rw [mbQueue_self, if_neg hn]
    show mergeAdj (0, 0, 0) (sortBlocks [(0, 0, s.length)]) ++ [(s.length, s.length, 0)] =
      [(0, 0, s.length)] ++ [(s.length, s.length, 0)]
    have hsort : sortBlocks [(0, 0, s.length)] = [(0, 0, s.length)] := rfl
    rw [hsort]
    have hmerge : mergeAdj (0, 0, 0) [(0, 0, s.length)] = [(0, 0, s.length)] := by
      rw [mergeAdj, if_pos ⟨rfl, rfl⟩, mergeAdj, if_pos (by omega)]
      simp
    rw [hmerge]

/-- `SequenceMatcher.ratio` of a string with itself is `1` — for every
string, including those long enough for the autojunk purge to fire. -/
theorem ratioOf_self (s : Str) : ratioOf s s = 1 := by
  by_cases hn : s.length = 0
  · unfold ratioOf
    rw [getMatchingBlocks_self, if_pos hn]
    simp [hn]
  · unfold ratioOf
    rw [getMatchingBlocks_self, if_neg hn]
    simp only [List.cons_append, List.nil_append, List.map_cons, List.map_nil,
      List.sum_cons, List.sum_nil]
    rw [if_pos (by omega)]
    have hq : (s.length : ℚ) ≠ 0 := Nat.cast_ne_zero.mpr hn
    field_simp
    ring

theorem similarity_score_self_lower (cand : Str) :
    similarity_score cand (lowerStr cand) = 1 := by
  unfold similarity_score
  rw [lowerStr_idem]
  exact ratioOf_self (lowerStr cand)

/-- Claim C1: whenever `find_best_match` returns an entity at threshold
`t ∈ [0, 1]`, some index key mapping to that entity has similarity at
least `t` with the candidate — on the fuzzy path because a replacement
requires `score >= threshold`, and on the exact-lookup path because the
key is the lowercased candidate, whose similarity with the candidate is
exactly `1` (`ratio` of a string with itself, `lower` being
idempotent). -/
theorem c1_threshold (idx : EIndex) (cand : Str) (t : ℚ) (e : Term)
    (ht0 : 0 ≤ t) (ht1 : t ≤ 1)
    (h : find_best_match idx cand t = some e) :
    ∃ k : Str, (k, e) ∈ idx ∧ t ≤ similarity_score cand k := by
  unfold find_best_match at h
  cases hl : dlookup idx (lowerStr cand) with
  | some e' =>
    rw [hl] at h
    have he : e' = e := Option.some_inj.mp h
    subst he
    refine ⟨lowerStr cand, dlookup_mem hl, ?_⟩
    rw [similarity_score_self_lower]
    exact ht1
  | none =>
    rw [hl] at h
    have hfold := @foldl_mem_inv _ _
      (fun acc : ℚ × Option Term => ∀ e', acc.2 = some e' →
        ∃ k : Str, (k, e') ∈ idx ∧ t ≤ similarity_score cand k)
      (fuzzyStep cand t) idx (0, none)
      (fun e' he' => by cases he')
      (fun u p hp hu => by
        obtain ⟨k, v⟩ := p
        by_cases hc : u.1 < similarity_score cand k ∧ t ≤ similarity_score cand k
        · rw [fuzzyStep_pos hc]
          intro e' he'
          have hv : v = e' := Option.some_inj.mp he'
          subst hv
          exact ⟨k, hp, hc.2⟩
        · rw [fuzzyStep_neg hc]
          exact hu)
    exact hfold e h

theorem c1_witness :
    (0 : ℚ) ≤ 1 ∧ (1 : ℚ) ≤ 1 ∧
    (∃ k : Str, (k, entA) ∈ idxG ∧ (1 : ℚ) ≤ similarity_score ("GANDALF".data) k) :=
  ⟨zero_le_one, le_refl 1,
   c1_threshold idxG ("GANDALF".data) 1 entA zero_le_one (le_refl 1) rfl⟩

end MetwStep4
